import Mathlib

/-!
Verification of the kombat hierarchy builder against its specification.

The development shallowly embeds `src/kombat/structures/hierarchy.py`
(class `Hierarchy`: `build_hierarchy`, `_process_directory`,
`_add_file_to_hierarchy`, `_get_file_metadata`), the summary analyzer
`src/kombat/services/analysis_service.py` (`analyze_hierarchy`, the part
that touches dictionary keys), and the CSV exporter
`src/kombat/services/csv_service.py` (`export_to_csv`).

The filesystem is modelled as a tree of entries.  A file carries
`Option FileMetadata`: `none` means `os.stat`/`open` raises an access
error for it.  A directory carries `Option (List FSEntry)`: `none` means
`os.listdir` raises.  Python dictionaries (insertion ordered) are
modelled as association lists, with in-place update on existing keys and
append for fresh keys, mirroring CPython semantics.  Exceptions are
modelled with `Except`.
-/

/-- Metadata record produced by `_get_file_metadata` (hierarchy.py lines
183-204).  The hash is carried as data: it stands for the sha256 digest
of the file's content. -/
structure FileMetadata where
  size_in_bytes : Nat
  modified : Int
  created : Int
  mode : Nat
  readable : Bool
  writable : Bool
  executable : Bool
  mime_type : String
  hash : String
deriving DecidableEq

/-- A filesystem entry as seen by the traversal: either a regular file
(with `none` metadata when stat/open would fail) or a directory (with
`none` listing when `os.listdir` would fail). -/
inductive FSEntry where
  | file (name : String) (meta : Option FileMetadata)
  | dir (name : String) (listing : Option (List FSEntry))

def entryName : FSEntry → String
  | .file n _ => n
  | .dir n _ => n

-- Well-formedness of a modelled filesystem: within any single directory
-- listing the entry names are pairwise distinct, as `os.listdir`
-- guarantees.
mutual
def wfEntry : FSEntry → Bool
  | .file _ _ => true
  | .dir _ none => true
  | .dir _ (some l) => wfList l
def wfList : List FSEntry → Bool
  | [] => true
  | e :: rest =>
    wfEntry e && !((rest.map entryName).contains (entryName e)) && wfList rest
end

/-- Lexicographic comparison of character lists by code point, the order
Python's `sorted` uses on strings. -/
def lexLt : List Char → List Char → Bool
  | _, [] => false
  | [], _ :: _ => true
  | a :: as, b :: bs => a.toNat < b.toNat || (a.toNat == b.toNat && lexLt as bs)

def strLt (a b : String) : Bool := lexLt a.data b.data

/-- ASCII lower-casing of a character, as `Char.toLower` does and as
Python's `str.lower` does on the ASCII range relevant to extensions. -/
def charLower (c : Char) : Char :=
  if 65 ≤ c.toNat && c.toNat ≤ 90 then Char.ofNat (c.toNat + 32) else c

/-- Lower-casing of a string, modelling `.lower()`. -/
def strLower (s : String) : String := String.mk (s.data.map charLower)

/-- Does the string start with a dot, modelling `.startswith('.')`. -/
def headIsDot (s : String) : Bool :=
  match s.data with
  | c :: _ => c == '.'
  | [] => false

/-- Splits off the last dot of a character list: returns the part before
the last dot and the part from the last dot on. -/
def lastDotSplit : List Char → Option (List Char × List Char)
  | [] => none
  | c :: rest =>
    match lastDotSplit rest with
    | some (p, e) => some (c :: p, e)
    | none => if c == '.' then some ([], c :: rest) else none

/-- The extension part of `os.path.splitext` applied to a base name: text
from the last dot on, unless every character before that dot is itself a
dot (so `".bashrc"` has no extension), in which case the extension is
empty. -/
def splitextExt (name : String) : String :=
  match lastDotSplit name.data with
  | none => ("")
  | some (p, e) =>
    if p.any (fun c => !(c == '.')) then String.mk e else ("")

/-- One entry of the extension-filter normalization from
`build_hierarchy` (hierarchy.py lines 43-45): lower-case, and prefix a
dot when the entry does not already start with one. -/
def normalizeExt (ext : String) : String :=
  if headIsDot ext then strLower ext else (".") ++ strLower ext

def normalizeExtensions : Option (List String) → Option (List String)
  | none => none
  | some exts => some (exts.map normalizeExt)

/-- The per-file filter check of `build_hierarchy`/`_process_directory`
(hierarchy.py lines 84-87 and 143-146): with no filter every file passes;
otherwise the lower-cased extension of the name must be in the set. -/
def passesFilter (exts : Option (List String)) (name : String) : Bool :=
  match exts with
  | none => true
  | some es => es.contains (strLower (splitextExt name))

/-- A directory node of the built hierarchy.  It mirrors the Python dict:
`directories` and `duplicates` are `Option` because those keys may be
absent (subdirectory nodes are created without a `directories` key, and
`duplicates` is only set when non-empty). -/
inductive DirNode where
  | mk
    (total_size_in_bytes : Nat)
    (file_count : Nat)
    (files : List (String × List (String × FileMetadata)))
    (directories : Option (List (String × DirNode)))
    (duplicates : Option (List (String × List String)))

def DirNode.total_size_in_bytes : DirNode → Nat
  | .mk t _ _ _ _ => t

def DirNode.file_count : DirNode → Nat
  | .mk _ c _ _ _ => c

def DirNode.files : DirNode → List (String × List (String × FileMetadata))
  | .mk _ _ f _ _ => f

def DirNode.directories : DirNode → Option (List (String × DirNode))
  | .mk _ _ _ d _ => d

def DirNode.duplicates : DirNode → Option (List (String × List String))
  | .mk _ _ _ _ du => du

/-- Python dict lookup on an association list. -/
def dictFind {α : Type} : List (String × α) → String → Option α
  | [], _ => none
  | (k, v) :: rest, key => if k == key then some v else dictFind rest key

/-- Python dict assignment: replace in place when the key exists,
otherwise append at the end. -/
def dictInsert {α : Type} : List (String × α) → String → α → List (String × α)
  | [], key, v => [(key, v)]
  | (k, w) :: rest, key, v =>
    if k == key then (k, v) :: rest else (k, w) :: dictInsert rest key v

/-- Inner dict update of `_add_file_to_hierarchy`: set the file name's
metadata inside one extension group. -/
def addToGroup : List (String × FileMetadata) → String → FileMetadata →
    List (String × FileMetadata)
  | [], n, m => [(n, m)]
  | (n', m') :: rest, n, m =>
    if n' == n then (n', m) :: rest else (n', m') :: addToGroup rest n m

/-- Outer update of `_add_file_to_hierarchy` (hierarchy.py lines 166-173):
create the extension group when missing, then set the file's metadata in
it. -/
def addToExtGroups :
    List (String × List (String × FileMetadata)) → String → String →
    FileMetadata → List (String × List (String × FileMetadata))
  | [], ext, n, m => [(ext, [(n, m)])]
  | (e, g) :: rest, ext, n, m =>
    if e == ext then (e, addToGroup g n m) :: rest
    else (e, g) :: addToExtGroups rest ext n m

def addFileToFiles (files : List (String × List (String × FileMetadata)))
    (n : String) (m : FileMetadata) :
    List (String × List (String × FileMetadata)) :=
  addToExtGroups files (strLower (splitextExt n)) n m

/-- The `hash_to_files` update (hierarchy.py lines 151-153): create the
hash bucket when missing, then append the file name to it. -/
def addHash : List (String × List String) → String → String →
    List (String × List String)
  | [], hsh, n => [(hsh, [n])]
  | (k, v) :: rest, hsh, n =>
    if k == hsh then (k, v ++ [n]) :: rest else (k, v) :: addHash rest hsh n

/-- Insertion into a list sorted by key, implementing Python's `sorted`
on dict items (keys are distinct in every use). -/
def insertSorted {α : Type} (p : String × α) :
    List (String × α) → List (String × α)
  | [] => [p]
  | q :: rest =>
    if strLt p.1 q.1 then p :: q :: rest else q :: insertSorted p rest

def sortByKey {α : Type} (l : List (String × α)) : List (String × α) :=
  l.foldr insertSorted []

/-- The duplicates filter (hierarchy.py line 159): keep only hashes with
at least two file names. -/
def computeDuplicates (h2f : List (String × List String)) :
    List (String × List String) :=
  h2f.filter (fun p => 1 < p.2.length)

/-- Set the `duplicates` key only when duplicates exist (hierarchy.py
lines 160-161). -/
def setDuplicates (node : DirNode) (h2f : List (String × List String)) :
    DirNode :=
  match node with
  | .mk t c f d du =>
    let dups := computeDuplicates h2f
    if dups.isEmpty then .mk t c f d du else .mk t c f d (some dups)

/-- Sort every extension group of a node by file name (hierarchy.py lines
163-164 / 106-107 / 110-112). -/
def sortFilesOfNode (node : DirNode) : DirNode :=
  match node with
  | .mk t c f d du => .mk t c (f.map (fun g => (g.1, sortByKey g.2))) d du

/-- Epilogue of `_process_directory` on a freshly processed node: record
duplicates, then sort the extension groups. -/
def finishNode (node : DirNode) (h2f : List (String × List String)) :
    DirNode :=
  sortFilesOfNode (setDuplicates node h2f)

/-- The node created for a subdirectory before recursing (hierarchy.py
lines 70-74 and 130-134): note there is no `directories` key. -/
def freshNode : DirNode := .mk 0 0 [] none none

/-- The node created for the root (hierarchy.py lines 48-53): it does
have a `directories` key, initially empty. -/
def rootInitNode : DirNode := .mk 0 0 [] (some []) none

/-- Store a finished child node under the directory's `directories` key,
creating the key when absent (hierarchy.py lines 128-134). -/
def addDirChild (node : DirNode) (name : String) (child : DirNode) :
    DirNode :=
  match node with
  | .mk t c f d du => .mk t c f (some (dictInsert (d.getD []) name child)) du

/-- Account one included file in a node: add its metadata entry, its size
and bump the count (hierarchy.py lines 155-157 / 96-98). -/
def addOwnFile (node : DirNode) (name : String) (m : FileMetadata) :
    DirNode :=
  match node with
  | .mk t c f d du =>
    .mk (t + m.size_in_bytes) (c + 1) (addFileToFiles f name m) d du

/-- Depth passed to the next level (hierarchy.py lines 80 and 140):
decrement positive depth, otherwise pass -1 (unlimited). -/
def childDepth (depth : Int) : Int := if 0 < depth then depth - 1 else -1

inductive BuildError where
  | accessError (name : String)
deriving DecidableEq

-- The traversal loop shared by `build_hierarchy` (lines 62-98) and
-- `_process_directory` (lines 121-157): files are filtered, their
-- metadata recorded and hashed; subdirectories are skipped at depth 0
-- and otherwise recursively processed into a fresh node which is
-- finished (duplicates + sorting) and stored.  An access failure
-- propagates as an exception.
mutual
def processList (exts : Option (List String)) :
    List FSEntry → DirNode → List (String × List String) → Int →
    Except BuildError (DirNode × List (String × List String))
  | [], node, h2f, _ => .ok (node, h2f)
  | e :: rest, node, h2f, depth =>
    match processEntry exts e node h2f depth with
    | .error err => .error err
    | .ok (node', h2f') => processList exts rest node' h2f' depth
def processEntry (exts : Option (List String)) :
    FSEntry → DirNode → List (String × List String) → Int →
    Except BuildError (DirNode × List (String × List String))
  | .file name meta, node, h2f, _ =>
    if passesFilter exts name then
      match meta with
      | none => .error (.accessError name)
      | some m => .ok (addOwnFile node name m, addHash h2f m.hash name)
    else .ok (node, h2f)
  | .dir name listing, node, h2f, depth =>
    if depth == 0 then .ok (node, h2f)
    else
      match listing with
      | none => .error (.accessError name)
      | some sub =>
        match processList exts sub freshNode [] (childDepth depth) with
        | .error err => .error err
        | .ok (child, childH2f) =>
          .ok (addDirChild node name (finishNode child childH2f), h2f)
end

/-- The root epilogue of `build_hierarchy` (hierarchy.py lines 100-113):
record root duplicates, sort the root's groups, sort each immediate
subdirectory's groups, and add each immediate subdirectory's total to the
root total. -/
def finishRoot (node : DirNode) (h2f : List (String × List String)) :
    DirNode :=
  match sortFilesOfNode (setDuplicates node h2f) with
  | .mk t c f d du =>
    let dirs := (d.getD []).map (fun p => (p.1, sortFilesOfNode p.2))
    let total := t + (dirs.map (fun p => p.2.total_size_in_bytes)).sum
    .mk total c f (some dirs) du

/-- `build_hierarchy` (hierarchy.py lines 27-115).  The root argument is
`none` when the root path does not exist; a `file` root models a path
that is not a directory.  Both produce an empty hierarchy after printing
a message.  A root whose own listing fails raises. -/
def build_hierarchy (root : Option FSEntry)
    (extensions : Option (List String)) (depth : Int) :
    Except BuildError (List (String × DirNode)) :=
  match root with
  | none => .ok []
  | some (.file _ _) => .ok []
  | some (.dir name listing) =>
    match listing with
    | none => .error (.accessError name)
    | some [] => .ok [(name, rootInitNode)]
    | some items =>
      match processList (normalizeExtensions extensions) items rootInitNode
          [] depth with
      | .error e => .error e
      | .ok (node, h2f) => .ok [(name, finishRoot node h2f)]

/-- Error raised by the summary analyzer: a missing dictionary key. -/
inductive AnalyzeError where
  | keyError (key : String)
deriving DecidableEq

-- The key accesses of the `traverse` closure in `analyze_hierarchy`
-- (analysis_service.py lines 25-44): for every subdirectory entry the
-- condition `not dir_data["files"] and not dir_data["directories"]` is
-- evaluated; when the files dict is empty the `directories` access
-- raises `KeyError` on nodes without that key.  Traversal then recurses
-- into the child.
mutual
def traverseNode : DirNode → Except AnalyzeError Unit
  | .mk _ _ _ none _ => .ok ()
  | .mk _ _ _ (some dirs) _ => traverseDirs dirs
def traverseDirs : List (String × DirNode) → Except AnalyzeError Unit
  | [] => .ok ()
  | (_, child) :: rest =>
    if child.files.isEmpty then
      match child.directories with
      | none => .error (.keyError ("directories"))
      | some _ =>
        match traverseNode child with
        | .error e => .error e
        | .ok _ => traverseDirs rest
    else
      match traverseNode child with
      | .error e => .error e
      | .ok _ => traverseDirs rest
end

/-- The traversal of `analyze_hierarchy` over every root entry
(analysis_service.py lines 46-48), reduced to its raising behaviour. -/
def analyzeCheck : List (String × DirNode) → Except AnalyzeError Unit
  | [] => .ok ()
  | (_, root) :: rest =>
    match traverseNode root with
    | .error e => .error e
    | .ok _ => analyzeCheck rest

inductive InitError where
  | buildErr (e : BuildError)
  | analyzeErr (e : AnalyzeError)
deriving DecidableEq

/-- `Hierarchy.__init__` with a root path (hierarchy.py lines 22-25):
build the hierarchy, then immediately compute the summary via
`AnalysisService.analyze_hierarchy`; an exception from either phase
escapes the constructor. -/
def hierarchyInit (root : Option FSEntry)
    (extensions : Option (List String)) (depth : Int) :
    Except InitError (List (String × DirNode)) :=
  match build_hierarchy root extensions depth with
  | .error e => .error (.buildErr e)
  | .ok h =>
    match analyzeCheck h with
    | .error e => .error (.analyzeErr e)
    | .ok _ => .ok h

/-- One CSV row as assembled by `CSVService.export_to_csv`
(csv_service.py lines 13-25). -/
structure CSVRow where
  directory : String
  file_name : String
  size_bytes : Nat
  modified_timestamp : Int
  created_timestamp : Int
  mime_type : String
  hash : String
  readable : Bool
  writable : Bool
  executable : Bool
deriving DecidableEq

/-- The `process_files` helper of `export_to_csv` (csv_service.py lines
11-25): one row per file of every extension group, tagged with the given
directory path. -/
def processFilesRows (directory_path : String)
    (files_data : List (String × List (String × FileMetadata))) :
    List CSVRow :=
  files_data.flatMap (fun g => g.2.map (fun p =>
    ⟨directory_path, p.1, p.2.size_in_bytes, p.2.modified, p.2.created,
      p.2.mime_type, p.2.hash, p.2.readable, p.2.writable, p.2.executable⟩))

/-- Row collection of `export_to_csv` (csv_service.py lines 27-37): the
root's own files, then the files of each immediate subdirectory with
path `root/dirname`.  No deeper level is visited. -/
def csvRows (hierarchy : List (String × DirNode)) : List CSVRow :=
  hierarchy.flatMap (fun r =>
    processFilesRows r.1 r.2.files ++
    (match r.2.directories with
     | none => []
     | some dirs =>
       dirs.flatMap (fun d =>
         processFilesRows (r.1 ++ "/" ++ d.1) d.2.files)))

/-- `export_to_csv` (csv_service.py lines 39-44): `some rows` models the
written file; `none` models that no file is opened or written at all
(the `if rows:` guard fails). -/
def export_to_csv (hierarchy : List (String × DirNode)) :
    Option (List CSVRow) :=
  let rows := csvRows hierarchy
  if rows.isEmpty then none else some rows

/-! Observers used to state the claims. -/

/-- The subdirectory entries recorded in a node (empty when the
`directories` key is absent). -/
def childDirs (d : DirNode) : List (String × DirNode) :=
  d.directories.getD []

/-- All nodes exactly `k` directory levels below the given node. -/
def nodesAtDepth : DirNode → Nat → List DirNode
  | d, 0 => [d]
  | d, k + 1 => (childDirs d).flatMap (fun p => nodesAtDepth p.2 k)

/-- Names of the directory nodes exactly `k + 1` levels below the node. -/
def namesAtLevel : DirNode → Nat → List String
  | d, 0 => (childDirs d).map (fun p => p.1)
  | d, k + 1 => (childDirs d).flatMap (fun p => namesAtLevel p.2 k)

/-- The directory entries of a filesystem listing. -/
def dirItems (items : List FSEntry) :
    List (String × Option (List FSEntry)) :=
  items.filterMap (fun e =>
    match e with
    | .dir n l => some (n, l)
    | .file _ _ => none)

/-- Names of the directories exactly `k + 1` levels below a filesystem
listing. -/
def fsNamesAtLevel : List FSEntry → Nat → List String
  | items, 0 => (dirItems items).map (fun p => p.1)
  | items, k + 1 =>
    (dirItems items).flatMap (fun p => fsNamesAtLevel (p.2.getD []) k)

/-- Total size of the metadata entries of one extension group. -/
def groupSize (g : List (String × FileMetadata)) : Nat :=
  (g.map (fun p => p.2.size_in_bytes)).sum

/-- Total size of a node's own recorded files. -/
def filesSize (files : List (String × List (String × FileMetadata))) :
    Nat :=
  (files.map (fun g => groupSize g.2)).sum

/-- The (file name, content hash) pairs of a node's own files. -/
def filePairs (files : List (String × List (String × FileMetadata))) :
    List (String × String) :=
  files.flatMap (fun g => g.2.map (fun p => (p.1, p.2.hash)))

/-- The file names recorded in a node's own files. -/
def fileNames (files : List (String × List (String × FileMetadata))) :
    List String :=
  files.flatMap (fun g => g.2.map (fun p => p.1))

/-- Number of file entries recorded in a node's own files. -/
def fileEntryCount (files : List (String × List (String × FileMetadata))) :
    Nat :=
  (files.map (fun g => g.2.length)).sum

/-- The (file name, hash) pairs of a `hash_to_files` table. -/
def h2fPairs (h2f : List (String × List String)) :
    List (String × String) :=
  h2f.flatMap (fun p => p.2.map (fun n => (n, p.1)))

/-- How many of a node's own files carry the given content hash. -/
def hashCount (files : List (String × List (String × FileMetadata)))
    (hsh : String) : Nat :=
  (filePairs files).countP (fun q => q.2 == hsh)

/-- The duplicates table of a node (empty when the key is absent). -/
def dupPresent (d : DirNode) : List (String × List String) :=
  d.duplicates.getD []

-- Total number of file entries recorded anywhere in a node's tree.
mutual
def nodeFileCount : DirNode → Nat
  | .mk _ _ f none _ => fileEntryCount f
  | .mk _ _ f (some dirs) _ => fileEntryCount f + dirsFileCount dirs
def dirsFileCount : List (String × DirNode) → Nat
  | [] => 0
  | (_, c) :: rest => nodeFileCount c + dirsFileCount rest
end

/-- Total number of file entries recorded anywhere in a hierarchy. -/
def treeFileCount (hierarchy : List (String × DirNode)) : Nat :=
  (hierarchy.map (fun p => nodeFileCount p.2)).sum

/-- Every extension group of the files table is sorted by file name in
the lexicographic string order. -/
def sortedGroups
    (files : List (String × List (String × FileMetadata))) : Prop :=
  ∀ g ∈ files, g.2.Pairwise (fun a b => strLt b.1 a.1 = false)

/-- The duplicates table of a node is exactly the hash groups of size at
least two over the node's own files: every recorded hash group has at
least two names, its length is the number of own files with that hash,
its names are own file names with that hash; every hash carried by at
least two own files is recorded; and the key is absent exactly when no
hash is shared. -/
def dupOk (d : DirNode) : Prop :=
  (∀ q ∈ dupPresent d, 2 ≤ q.2.length ∧
    q.2.length = hashCount d.files q.1 ∧
    ∀ n ∈ q.2, (n, q.1) ∈ filePairs d.files) ∧
  (∀ hsh, 2 ≤ hashCount d.files hsh →
    ∃ names, (hsh, names) ∈ dupPresent d) ∧
  (d.duplicates = none ↔ ∀ hsh, hashCount d.files hsh ≤ 1)

/-- Exactly one directory node at depth strictly below the limit-induced
cutoff: all subtrees of the node are empty from level `depth` on. -/
def childBound (depth : Int) (c : DirNode) : Prop :=
  ∀ k : Nat, 0 ≤ depth → depth ≤ (k : Int) → nodesAtDepth c k = []

/-- Every node of the subtree satisfies the local per-node facts that
hold of finished non-root nodes. -/
def goodSub (c : DirNode) : Prop :=
  ∀ k : Nat, ∀ d ∈ nodesAtDepth c k,
    d.total_size_in_bytes = filesSize d.files ∧ dupOk d ∧ sortedGroups d.files

/-- Invariant carried through the traversal loop for the node under
construction and its `hash_to_files` table. -/
def MidInv (depth : Int) (node : DirNode)
    (h2f : List (String × List String)) : Prop :=
  (h2fPairs h2f).Perm (filePairs node.files) ∧
  (h2f.map Prod.fst).Nodup ∧
  node.total_size_in_bytes = filesSize node.files ∧
  node.duplicates = none ∧
  (∀ p ∈ childDirs node, goodSub p.2 ∧ childBound depth p.2)

/-- Names of the directories exactly `k + 1` levels below the root of a
modelled filesystem entry. -/
def fsChildNamesAtLevel : FSEntry → Nat → List String
  | .dir _ (some l), k => fsNamesAtLevel l k
  | _, _ => []

/-- A fixed metadata record used for the concrete test filesystems. -/
def simpleMeta (sz : Nat) (hsh : String) : FileMetadata :=
  ⟨sz, 0, 0, 420, true, true, false, ("application/octet-stream"), hsh⟩

/-- An existing, empty root directory. -/
def emptyRootFS : FSEntry := .dir ("r") (some [])

/-- A root holding a single file nested two directory levels down:
`r/a/b/f.txt` of size 5. -/
def c1fs : FSEntry :=
  .dir ("r") (some [.dir ("a") (some [.dir ("b")
    (some [.file ("f.txt") (some (simpleMeta 5 ("h5")))])])])

/-- A root with one file whose metadata extraction fails and one healthy
sibling. -/
def c2fs : FSEntry :=
  .dir ("r") (some [.file ("bad.txt") none,
    .file ("good.txt") (some (simpleMeta 1 ("hg")))])

/-- A root with two same-content files. -/
def c3fs : FSEntry :=
  .dir ("r") (some [.file ("a.txt") (some (simpleMeta 1 ("h"))),
    .file ("b.txt") (some (simpleMeta 1 ("h")))])

/-- The node the builder produces for `c3fs`. -/
def c3node : DirNode :=
  .mk 2 2
    [((".txt"), [(("a.txt"), simpleMeta 1 ("h")),
      (("b.txt"), simpleMeta 1 ("h"))])]
    (some [])
    (some [(("h"), [("a.txt"), ("b.txt")])])

/-- A root whose only file sits two levels below the root:
`r/a/b/deep.txt` of size 3. -/
def c5fs : FSEntry :=
  .dir ("r") (some [.dir ("a") (some [.dir ("b")
    (some [.file ("deep.txt") (some (simpleMeta 3 ("hd")))])])])

/-- A root with upper- and lower-case text files and a pdf. -/
def c6fs : FSEntry :=
  .dir ("r") (some [.file ("A.TXT") (some (simpleMeta 1 ("ha"))),
    .file ("b.txt") (some (simpleMeta 2 ("hb"))),
    .file ("c.pdf") (some (simpleMeta 4 ("hc")))])

/-- A valid root containing one subdirectory that holds no files and no
nested subdirectory. -/
def c9fs : FSEntry := .dir ("r") (some [.dir ("sub") (some [])])

/-! String order lemmas for the sorting proofs. -/

theorem lexLt_asymm : ∀ a b : List Char,
    lexLt a b = true → lexLt b a = false := by
  intro a
  induction a with
  | nil =>
    intro b h
    cases b with
    | nil => simp [lexLt] at h
    | cons y ys => simp [lexLt]
  | cons x xs ih =>
    intro b h
    cases b with
    | nil => simp [lexLt] at h
    | cons y ys =>
      simp [lexLt] at h ⊢
      rcases h with h | ⟨he, hr⟩
      · exact ⟨by omega, fun hyx => absurd hyx (by omega)⟩
      · exact ⟨by omega, fun _ => ih ys hr⟩

theorem lexLt_neg_trans : ∀ a b c : List Char,
    lexLt b a = false → lexLt c b = false → lexLt c a = false := by
  intro a
  induction a with
  | nil => intro b c _ _; simp [lexLt]
  | cons x xs ih =>
    intro b c hba hcb
    cases b with
    | nil => simp [lexLt] at hba
    | cons y ys =>
      cases c with
      | nil => simp [lexLt] at hcb
      | cons z zs =>
        simp [lexLt] at hba hcb ⊢
        refine ⟨by omega, fun hzx => ?_⟩
        have h1 : x.toNat ≤ y.toNat := hba.1
        have h2 : y.toNat ≤ z.toNat := hcb.1
        exact ih ys zs (hba.2 (by omega)) (hcb.2 (by omega))

theorem strLt_asymm (a b : String) (h : strLt a b = true) :
    strLt b a = false :=
  lexLt_asymm a.data b.data h

theorem strLt_neg_trans (a b c : String) (hba : strLt b a = false)
    (hcb : strLt c b = false) : strLt c a = false :=
  lexLt_neg_trans a.data b.data c.data hba hcb

theorem insertSorted_perm {α : Type} (p : String × α) :
    ∀ l : List (String × α), (insertSorted p l).Perm (p :: l) := by
  intro l
  induction l with
  | nil => simp [insertSorted]
  | cons q rest ih =>
    simp only [insertSorted]
    by_cases h : strLt p.1 q.1 = true
    · rw [if_pos h]
    · rw [if_neg h]
      exact (ih.cons q).trans (List.Perm.swap p q rest)

theorem sortByKey_perm {α : Type} (l : List (String × α)) :
    (sortByKey l).Perm l := by
  induction l with
  | nil => simp [sortByKey]
  | cons p rest ih =>
    have h : sortByKey (p :: rest) = insertSorted p (sortByKey rest) := rfl
    rw [h]
    exact (insertSorted_perm p (sortByKey rest)).trans (ih.cons p)

theorem insertSorted_sorted {α : Type} (p : String × α) :
    ∀ l : List (String × α),
    l.Pairwise (fun a b => strLt b.1 a.1 = false) →
    (insertSorted p l).Pairwise (fun a b => strLt b.1 a.1 = false) := by
  intro l
  induction l with
  | nil => intro _; simp [insertSorted]
  | cons q rest ih =>
    intro h
    rcases List.pairwise_cons.mp h with ⟨hq, hrest⟩
    simp only [insertSorted]
    by_cases hlt : strLt p.1 q.1 = true
    · rw [if_pos hlt]
      refine List.pairwise_cons.mpr ⟨?_, h⟩
      intro r hr
      rcases List.mem_cons.mp hr with hr | hr
      · rw [hr]
        exact strLt_asymm p.1 q.1 hlt
      · exact strLt_neg_trans p.1 q.1 r.1 (strLt_asymm p.1 q.1 hlt) (hq r hr)
    · rw [if_neg hlt]
      have hle : strLt p.1 q.1 = false := by simpa using hlt
      refine List.pairwise_cons.mpr ⟨?_, ih hrest⟩
      intro r hr
      rcases List.mem_cons.mp ((insertSorted_perm p rest).mem_iff.mp hr) with
        hr | hr
      · rw [hr]
        exact hle
      · exact hq r hr

theorem sortByKey_sorted {α : Type} (l : List (String × α)) :
    (sortByKey l).Pairwise (fun a b => strLt b.1 a.1 = false) := by
  induction l with
  | nil => simp [sortByKey]
  | cons p rest ih => exact insertSorted_sorted p (sortByKey rest) ih

/-! Lemmas about the hash table update. -/

theorem h2fPairs_addHash : ∀ (h2f : List (String × List String))
    (hsh n : String),
    (h2fPairs (addHash h2f hsh n)).Perm ((n, hsh) :: h2fPairs h2f) := by
  intro h2f hsh n
  induction h2f with
  | nil => simp [addHash, h2fPairs]
  | cons p rest ih =>
    rcases p with ⟨k, v⟩
    by_cases hk : k == hsh
    · have hke : k = hsh := by simpa using hk
      subst hke
      simp only [addHash, hk, if_pos, h2fPairs, List.flatMap_cons,
        List.map_append, List.append_assoc, List.map_cons, List.map_nil,
        List.singleton_append]
      exact List.perm_middle
    · simp only [addHash, hk, if_neg, Bool.false_eq_true, not_false_eq_true,
        h2fPairs, List.flatMap_cons]
      exact (List.Perm.append_left _ ih).trans List.perm_middle

theorem addHash_keys_mem : ∀ (h2f : List (String × List String))
    (hsh n : String), hsh ∈ h2f.map Prod.fst →
    (addHash h2f hsh n).map Prod.fst = h2f.map Prod.fst := by
  intro h2f hsh n hmem
  induction h2f with
  | nil => simp at hmem
  | cons p rest ih =>
    rcases p with ⟨k, v⟩
    by_cases hk : k == hsh
    · simp only [addHash, hk, if_pos, List.map_cons]
    · have hne : k ≠ hsh := by simpa using hk
      simp only [List.map_cons, List.mem_cons] at hmem
      rcases hmem with hmem | hmem
      · exact absurd hmem.symm hne
      · simp only [addHash, hk, if_neg, Bool.false_eq_true,
          not_false_eq_true, List.map_cons, ih hmem]

theorem addHash_keys_not_mem : ∀ (h2f : List (String × List String))
    (hsh n : String), hsh ∉ h2f.map Prod.fst →
    (addHash h2f hsh n).map Prod.fst = h2f.map Prod.fst ++ [hsh] := by
  intro h2f hsh n hmem
  induction h2f with
  | nil => simp [addHash]
  | cons p rest ih =>
    rcases p with ⟨k, v⟩
    simp only [List.map_cons, List.mem_cons] at hmem
    push_neg at hmem
    by_cases hk : k == hsh
    · exact absurd (by simpa using hk : k = hsh).symm hmem.1
    · simp only [addHash, hk, if_neg, Bool.false_eq_true, not_false_eq_true,
        List.map_cons, ih hmem.2, List.cons_append]

theorem addHash_keys_nodup (h2f : List (String × List String))
    (hsh n : String) (h : (h2f.map Prod.fst).Nodup) :
    ((addHash h2f hsh n).map Prod.fst).Nodup := by
  by_cases hmem : hsh ∈ h2f.map Prod.fst
  · rw [addHash_keys_mem h2f hsh n hmem]
    exact h
  · rw [addHash_keys_not_mem h2f hsh n hmem]
    simp only [List.nodup_append, List.nodup_cons, List.not_mem_nil,
      not_false_eq_true, List.nodup_nil, and_true, true_and]
    refine ⟨h, ?_⟩
    intro a ha hb
    simp only [List.mem_singleton] at hb
    exact hmem (hb ▸ ha)

/-! Lemmas about the files-table update. -/

theorem addToGroup_not_mem : ∀ (g : List (String × FileMetadata))
    (n : String) (m : FileMetadata), n ∉ g.map Prod.fst →
    addToGroup g n m = g ++ [(n, m)] := by
  intro g n m hmem
  induction g with
  | nil => simp [addToGroup]
  | cons p rest ih =>
    rcases p with ⟨n', m'⟩
    simp only [List.map_cons, List.mem_cons] at hmem
    push_neg at hmem
    have hne : ¬ (n' == n) := by simpa using fun he => hmem.1 he.symm
    simp only [addToGroup, hne, if_neg, Bool.false_eq_true,
      not_false_eq_true, List.cons_append, ih hmem.2]

theorem fileNames_cons (g : String × List (String × FileMetadata))
    (rest : List (String × List (String × FileMetadata))) :
    fileNames (g :: rest) = g.2.map Prod.fst ++ fileNames rest := by
  simp [fileNames]

theorem filePairs_addToExtGroups :
    ∀ (files : List (String × List (String × FileMetadata)))
    (ext n : String) (m : FileMetadata), n ∉ fileNames files →
    (filePairs (addToExtGroups files ext n m)).Perm
      ((n, m.hash) :: filePairs files) := by
  intro files ext n m hmem
  induction files with
  | nil => simp [addToExtGroups, filePairs]
  | cons p rest ih =>
    rcases p with ⟨e, g⟩
    rw [fileNames_cons] at hmem
    simp only [List.mem_append] at hmem
    push_neg at hmem
    by_cases he : e == ext
    · simp only [addToExtGroups, he, if_pos]
      rw [addToGroup_not_mem g n m hmem.1]
      simp only [filePairs, List.flatMap_cons, List.map_append,
        List.map_cons, List.map_nil, List.append_assoc,
        List.singleton_append]
      exact List.perm_middle
    · simp only [addToExtGroups, he, if_neg, Bool.false_eq_true,
        not_false_eq_true, filePairs, List.flatMap_cons]
      exact (List.Perm.append_left _ (ih hmem.2)).trans List.perm_middle

theorem filesSize_addToExtGroups :
    ∀ (files : List (String × List (String × FileMetadata)))
    (ext n : String) (m : FileMetadata), n ∉ fileNames files →
    filesSize (addToExtGroups files ext n m) =
      filesSize files + m.size_in_bytes := by
  intro files ext n m hmem
  induction files with
  | nil => simp [addToExtGroups, filesSize, groupSize]
  | cons p rest ih =>
    rcases p with ⟨e, g⟩
    rw [fileNames_cons] at hmem
    simp only [List.mem_append] at hmem
    push_neg at hmem
    by_cases he : e == ext
    · simp only [addToExtGroups, he, if_pos]
      rw [addToGroup_not_mem g n m hmem.1]
      simp only [filesSize, List.map_cons, List.sum_cons, groupSize,
        List.map_append, List.sum_append, List.map_nil, List.sum_nil]
      omega
    · simp only [addToExtGroups, he, if_neg, Bool.false_eq_true,
        not_false_eq_true, filesSize, List.map_cons, List.sum_cons]
      have := ih hmem.2
      simp only [filesSize] at this
      omega

theorem addToGroup_names : ∀ (g : List (String × FileMetadata))
    (n : String) (m : FileMetadata) (y : String),
    y ∈ (addToGroup g n m).map Prod.fst → y = n ∨ y ∈ g.map Prod.fst := by
  intro g n m y hy
  induction g with
  | nil =>
    simp [addToGroup] at hy
    exact Or.inl hy
  | cons q grest gih =>
    rcases q with ⟨n', m'⟩
    by_cases hn : n' == n
    · simp only [addToGroup, hn, if_pos, List.map_cons, List.mem_cons] at hy
      rcases hy with hy | hy
      · right; simp [hy]
      · right; simp [List.mem_cons, hy]
    · simp only [addToGroup, hn, if_neg, Bool.false_eq_true,
        not_false_eq_true, List.map_cons, List.mem_cons] at hy
      rcases hy with hy | hy
      · right; simp [hy]
      · rcases gih hy with hy | hy
        · exact Or.inl hy
        · right; simp [List.mem_cons, hy]

theorem fileNames_addToExtGroups :
    ∀ (files : List (String × List (String × FileMetadata)))
    (ext n : String) (m : FileMetadata) (x : String),
    x ∈ fileNames (addToExtGroups files ext n m) →
    x = n ∨ x ∈ fileNames files := by
  intro files ext n m x hx
  induction files with
  | nil =>
    simp [addToExtGroups, fileNames] at hx
    exact Or.inl hx
  | cons p rest ih =>
    rcases p with ⟨e, g⟩
    by_cases he : e == ext
    · simp only [addToExtGroups, he, if_pos] at hx
      rw [fileNames_cons] at hx
      simp only [List.mem_append] at hx
      rcases hx with hx | hx
      · rcases addToGroup_names g n m x hx with hx | hx
        · exact Or.inl hx
        · right
          rw [fileNames_cons]
          simp [hx]
      · right
        rw [fileNames_cons]
        simp [hx]
    · simp only [addToExtGroups, he, if_neg, Bool.false_eq_true,
        not_false_eq_true] at hx
      rw [fileNames_cons] at hx
      simp only [List.mem_append] at hx
      rcases hx with hx | hx
      · right
        rw [fileNames_cons]
        simp [hx]
      · rcases ih hx with hx | hx
        · exact Or.inl hx
        · right
          rw [fileNames_cons]
          simp [hx]

/-! Lookup and counting lemmas connecting `hash_to_files` to its pairs. -/

theorem countP_bucket (v : List String) (k hsh : String) :
    (v.map (fun x => (x, k))).countP (fun q => q.2 == hsh) =
      if k == hsh then v.length else 0 := by
  induction v with
  | nil => simp
  | cons x rest ih =>
    simp only [List.map_cons, List.countP_cons, ih]
    by_cases hk : k == hsh
    · simp [hk]
    · simp [hk]

theorem countP_pairs_not_mem : ∀ (h2f : List (String × List String))
    (hsh : String), hsh ∉ h2f.map Prod.fst →
    (h2fPairs h2f).countP (fun q => q.2 == hsh) = 0 := by
  intro h2f hsh hmem
  induction h2f with
  | nil => simp [h2fPairs]
  | cons p rest ih =>
    rcases p with ⟨k, v⟩
    simp only [List.map_cons, List.mem_cons] at hmem
    push_neg at hmem
    have hk : ¬ (k == hsh) = true := by
      simp only [beq_iff_eq]
      exact fun he => hmem.1 he.symm
    simp only [h2fPairs, List.flatMap_cons, List.countP_append]
    rw [countP_bucket, if_neg hk]
    have := ih hmem.2
    simp only [h2fPairs] at this
    omega

theorem dictFind_count : ∀ (h2f : List (String × List String)),
    (h2f.map Prod.fst).Nodup → ∀ hsh : String,
    ((dictFind h2f hsh).getD []).length =
      (h2fPairs h2f).countP (fun q => q.2 == hsh) := by
  intro h2f hnd hsh
  induction h2f with
  | nil => simp [dictFind, h2fPairs]
  | cons p rest ih =>
    rcases p with ⟨k, v⟩
    simp only [List.map_cons, List.nodup_cons] at hnd
    simp only [h2fPairs, List.flatMap_cons, List.countP_append]
    rw [countP_bucket]
    by_cases hk : k == hsh
    · have hke : k = hsh := by simpa using hk
      rw [dictFind, if_pos hk]
      have hz : (h2fPairs rest).countP (fun q => q.2 == hsh) = 0 :=
        countP_pairs_not_mem rest hsh (hke ▸ hnd.1)
      simp only [h2fPairs] at hz
      simp [hk, hz]
    · rw [dictFind, if_neg hk]
      have := ih hnd.2
      simp only [h2fPairs] at this
      simp [hk, this]

theorem dictFind_mem {α : Type} : ∀ (l : List (String × α)) (key : String)
    (v : α), dictFind l key = some v → (key, v) ∈ l := by
  intro l key v h
  induction l with
  | nil => simp [dictFind] at h
  | cons p rest ih =>
    rcases p with ⟨k, w⟩
    by_cases hk : k == key
    · rw [dictFind, if_pos hk] at h
      have hke : k = key := by simpa using hk
      simp only [Option.some.injEq] at h
      simp [hke ▸ h ▸ List.mem_cons_self (k, w) rest, hke, h]
    · rw [dictFind, if_neg hk] at h
      exact List.mem_cons_of_mem _ (ih h)

theorem dictFind_of_mem_nodup {α : Type} : ∀ (l : List (String × α))
    (key : String) (v : α), (l.map Prod.fst).Nodup → (key, v) ∈ l →
    dictFind l key = some v := by
  intro l key v hnd hmem
  induction l with
  | nil => simp at hmem
  | cons p rest ih =>
    rcases p with ⟨k, w⟩
    simp only [List.map_cons, List.nodup_cons] at hnd
    rcases List.mem_cons.mp hmem with hmem | hmem
    · have hkk : k = key := by
        have := congrArg Prod.fst hmem.symm
        simpa using this
      have hvv : w = v := by
        have := congrArg Prod.snd hmem.symm
        simpa using this
      rw [dictFind, if_pos (by simpa using hkk)]
      rw [hvv]
    · have hne : ¬ (k == key) = true := by
        simp only [beq_iff_eq]
        intro hke
        exact hnd.1 (hke ▸ (List.mem_map_of_mem Prod.fst hmem))
      rw [dictFind, if_neg hne]
      exact ih hnd.2 hmem

theorem dictInsert_mem {α : Type} : ∀ (d : List (String × α))
    (k : String) (v : α) (q : String × α),
    q ∈ dictInsert d k v → q = (k, v) ∨ q ∈ d := by
  intro d k v q hq
  induction d with
  | nil =>
    simp [dictInsert] at hq
    exact Or.inl hq
  | cons p rest ih =>
    rcases p with ⟨k', w⟩
    by_cases hk : k' == k
    · have hke : k' = k := by simpa using hk
      rw [dictInsert, if_pos hk] at hq
      rcases List.mem_cons.mp hq with hq | hq
      · exact Or.inl (by rw [hq, hke])
      · exact Or.inr (List.mem_cons_of_mem _ hq)
    · rw [dictInsert, if_neg hk] at hq
      rcases List.mem_cons.mp hq with hq | hq
      · exact Or.inr (by rw [hq]; exact List.mem_cons_self _ _)
      · rcases ih hq with hq | hq
        · exact Or.inl hq
        · exact Or.inr (List.mem_cons_of_mem _ hq)

theorem dictInsert_not_mem {α : Type} : ∀ (d : List (String × α))
    (k : String) (v : α), k ∉ d.map Prod.fst →
    dictInsert d k v = d ++ [(k, v)] := by
  intro d k v hmem
  induction d with
  | nil => simp [dictInsert]
  | cons p rest ih =>
    rcases p with ⟨k', w⟩
    simp only [List.map_cons, List.mem_cons] at hmem
    push_neg at hmem
    have hk : ¬ (k' == k) = true := by
      simp only [beq_iff_eq]
      exact fun he => hmem.1 he.symm
    rw [dictInsert, if_neg hk, ih hmem.2]
    rfl

/-! Accessor lemmas for the node operations. -/

@[simp] theorem addOwnFile_files (node : DirNode) (n : String)
    (m : FileMetadata) :
    (addOwnFile node n m).files = addFileToFiles node.files n m := by
  cases node; rfl

@[simp] theorem addOwnFile_total (node : DirNode) (n : String)
    (m : FileMetadata) :
    (addOwnFile node n m).total_size_in_bytes =
      node.total_size_in_bytes + m.size_in_bytes := by
  cases node; rfl

@[simp] theorem addOwnFile_count (node : DirNode) (n : String)
    (m : FileMetadata) :
    (addOwnFile node n m).file_count = node.file_count + 1 := by
  cases node; rfl

@[simp] theorem addOwnFile_directories (node : DirNode) (n : String)
    (m : FileMetadata) :
    (addOwnFile node n m).directories = node.directories := by
  cases node; rfl

@[simp] theorem addOwnFile_duplicates (node : DirNode) (n : String)
    (m : FileMetadata) :
    (addOwnFile node n m).duplicates = node.duplicates := by
  cases node; rfl

@[simp] theorem addDirChild_files (node : DirNode) (n : String)
    (child : DirNode) : (addDirChild node n child).files = node.files := by
  cases node; rfl

@[simp] theorem addDirChild_total (node : DirNode) (n : String)
    (child : DirNode) :
    (addDirChild node n child).total_size_in_bytes =
      node.total_size_in_bytes := by
  cases node; rfl

@[simp] theorem addDirChild_count (node : DirNode) (n : String)
    (child : DirNode) :
    (addDirChild node n child).file_count = node.file_count := by
  cases node; rfl

@[simp] theorem addDirChild_duplicates (node : DirNode) (n : String)
    (child : DirNode) :
    (addDirChild node n child).duplicates = node.duplicates := by
  cases node; rfl

@[simp] theorem addDirChild_childDirs (node : DirNode) (n : String)
    (child : DirNode) :
    childDirs (addDirChild node n child) =
      dictInsert (childDirs node) n child := by
  cases node; rfl

@[simp] theorem setDuplicates_files (node : DirNode)
    (h2f : List (String × List String)) :
    (setDuplicates node h2f).files = node.files := by
  cases node
  simp only [setDuplicates]
  split <;> rfl

@[simp] theorem setDuplicates_total (node : DirNode)
    (h2f : List (String × List String)) :
    (setDuplicates node h2f).total_size_in_bytes =
      node.total_size_in_bytes := by
  cases node
  simp only [setDuplicates]
  split <;> rfl

@[simp] theorem setDuplicates_directories (node : DirNode)
    (h2f : List (String × List String)) :
    (setDuplicates node h2f).directories = node.directories := by
  cases node
  simp only [setDuplicates]
  split <;> rfl

theorem setDuplicates_duplicates (node : DirNode)
    (h2f : List (String × List String)) :
    (setDuplicates node h2f).duplicates =
      if (computeDuplicates h2f).isEmpty then node.duplicates
      else some (computeDuplicates h2f) := by
  cases node
  simp only [setDuplicates]
  split <;> rename_i h <;>
    simp [DirNode.duplicates, List.isEmpty_iff, h]

@[simp] theorem sortFilesOfNode_files (node : DirNode) :
    (sortFilesOfNode node).files =
      node.files.map (fun g => (g.1, sortByKey g.2)) := by
  cases node; rfl

@[simp] theorem sortFilesOfNode_total (node : DirNode) :
    (sortFilesOfNode node).total_size_in_bytes =
      node.total_size_in_bytes := by
  cases node; rfl

@[simp] theorem sortFilesOfNode_count (node : DirNode) :
    (sortFilesOfNode node).file_count = node.file_count := by
  cases node; rfl

@[simp] theorem sortFilesOfNode_directories (node : DirNode) :
    (sortFilesOfNode node).directories = node.directories := by
  cases node; rfl

@[simp] theorem sortFilesOfNode_duplicates (node : DirNode) :
    (sortFilesOfNode node).duplicates = node.duplicates := by
  cases node; rfl

@[simp] theorem childDirs_sortFilesOfNode (node : DirNode) :
    childDirs (sortFilesOfNode node) = childDirs node := by
  simp [childDirs]

@[simp] theorem childDirs_setDuplicates (node : DirNode)
    (h2f : List (String × List String)) :
    childDirs (setDuplicates node h2f) = childDirs node := by
  simp [childDirs]

@[simp] theorem childDirs_finishNode (node : DirNode)
    (h2f : List (String × List String)) :
    childDirs (finishNode node h2f) = childDirs node := by
  simp [finishNode]

@[simp] theorem freshNode_files : freshNode.files = [] := rfl
@[simp] theorem freshNode_total : freshNode.total_size_in_bytes = 0 := rfl
@[simp] theorem freshNode_directories : freshNode.directories = none := rfl
@[simp] theorem freshNode_duplicates : freshNode.duplicates = none := rfl
@[simp] theorem childDirs_freshNode : childDirs freshNode = [] := rfl
@[simp] theorem rootInitNode_files : rootInitNode.files = [] := rfl
@[simp] theorem rootInitNode_total :
    rootInitNode.total_size_in_bytes = 0 := rfl
@[simp] theorem rootInitNode_duplicates : rootInitNode.duplicates = none := rfl
@[simp] theorem childDirs_rootInitNode : childDirs rootInitNode = [] := rfl

/-! Preservation of sizes and pairs by the group sorting pass. -/

theorem filePairs_sortGroups
    (files : List (String × List (String × FileMetadata))) :
    (filePairs (files.map (fun g => (g.1, sortByKey g.2)))).Perm
      (filePairs files) := by
  induction files with
  | nil => simp [filePairs]
  | cons g rest ih =>
    simp only [List.map_cons, filePairs, List.flatMap_cons]
    exact List.Perm.append ((sortByKey_perm g.2).map _) ih

theorem filesSize_sortGroups
    (files : List (String × List (String × FileMetadata))) :
    filesSize (files.map (fun g => (g.1, sortByKey g.2))) =
      filesSize files := by
  induction files with
  | nil => simp [filesSize]
  | cons g rest ih =>
    simp only [List.map_cons, filesSize, List.sum_cons]
    have hg : groupSize (sortByKey g.2) = groupSize g.2 :=
      ((sortByKey_perm g.2).map _).sum_eq
    simp only [filesSize] at ih
    rw [hg, ih]

theorem fileNames_sortGroups
    (files : List (String × List (String × FileMetadata))) :
    (fileNames (files.map (fun g => (g.1, sortByKey g.2)))).Perm
      (fileNames files) := by
  induction files with
  | nil => simp [fileNames]
  | cons g rest ih =>
    simp only [List.map_cons, fileNames, List.flatMap_cons]
    exact List.Perm.append ((sortByKey_perm g.2).map _) ih

theorem fileEntryCount_sortGroups
    (files : List (String × List (String × FileMetadata))) :
    fileEntryCount (files.map (fun g => (g.1, sortByKey g.2))) =
      fileEntryCount files := by
  induction files with
  | nil => simp [fileEntryCount]
  | cons g rest ih =>
    simp only [List.map_cons, fileEntryCount, List.sum_cons]
    have hg : (sortByKey g.2).length = g.2.length :=
      (sortByKey_perm g.2).length_eq
    simp only [fileEntryCount] at ih
    rw [hg, ih]

/-! The epilogue of a node establishes the duplicate-table properties. -/

theorem hashCount_eq_lookup (node : DirNode)
    (h2f : List (String × List String))
    (hperm : (h2fPairs h2f).Perm (filePairs node.files))
    (hnd : (h2f.map Prod.fst).Nodup) (hsh : String) :
    hashCount node.files hsh = ((dictFind h2f hsh).getD []).length := by
  rw [dictFind_count h2f hnd hsh, hashCount]
  exact (hperm.countP_eq _).symm

theorem mem_h2fPairs_of_mem (h2f : List (String × List String))
    (k n : String) (v : List String) (hq : (k, v) ∈ h2f) (hn : n ∈ v) :
    (n, k) ∈ h2fPairs h2f := by
  simp only [h2fPairs, List.mem_flatMap]
  exact ⟨(k, v), hq, List.mem_map_of_mem _ hn⟩

theorem dupOk_setDuplicates (node : DirNode)
    (h2f : List (String × List String))
    (hperm : (h2fPairs h2f).Perm (filePairs node.files))
    (hnd : (h2f.map Prod.fst).Nodup)
    (hdup : node.duplicates = none) :
    dupOk (setDuplicates node h2f) := by
  have hfiles : (setDuplicates node h2f).files = node.files :=
    setDuplicates_files node h2f
  have hcount : ∀ hsh, hashCount (setDuplicates node h2f).files hsh =
      ((dictFind h2f hsh).getD []).length := by
    intro hsh
    rw [hfiles]
    exact hashCount_eq_lookup node h2f hperm hnd hsh
  have hmemdup : ∀ q, q ∈ computeDuplicates h2f ↔
      q ∈ h2f ∧ 1 < q.2.length := by
    intro q
    simp [computeDuplicates, List.mem_filter]
  refine ⟨?_, ?_, ?_⟩
  · intro q hq
    have hpres : q ∈ computeDuplicates h2f := by
      simp only [dupPresent, setDuplicates_duplicates, hdup] at hq
      by_cases he : (computeDuplicates h2f).isEmpty
      · simp [he] at hq
      · simpa [he] using hq
    rcases (hmemdup q).mp hpres with ⟨hin, hlen⟩
    have hfind : dictFind h2f q.1 = some q.2 :=
      dictFind_of_mem_nodup h2f q.1 q.2 hnd hin
    refine ⟨by omega, ?_, ?_⟩
    · rw [hcount q.1, hfind]
      rfl
    · intro n hn
      rw [hfiles]
      exact hperm.mem_iff.mp (mem_h2fPairs_of_mem h2f q.1 n q.2 hin hn)
  · intro hsh hge
    rw [hcount hsh] at hge
    rcases hfind : dictFind h2f hsh with _ | names
    · rw [hfind] at hge
      simp at hge
    · rw [hfind] at hge
      have hin : (hsh, names) ∈ h2f := dictFind_mem h2f hsh names hfind
      have hdups : (hsh, names) ∈ computeDuplicates h2f :=
        (hmemdup (hsh, names)).mpr ⟨hin, by simpa using hge⟩
      refine ⟨names, ?_⟩
      have hne : ¬ (computeDuplicates h2f).isEmpty := by
        intro he
        rw [List.isEmpty_iff] at he
        rw [he] at hdups
        simp at hdups
      simp only [dupPresent, setDuplicates_duplicates, hne, if_neg,
        not_false_eq_true, Option.getD_some]
      exact hdups
  · constructor
    · intro hnone hsh
      have he : (computeDuplicates h2f).isEmpty := by
        by_contra hne
        rw [setDuplicates_duplicates] at hnone
        simp [hne] at hnone
      rw [List.isEmpty_iff] at he
      rw [hcount hsh]
      rcases hfind : dictFind h2f hsh with _ | names
      · simp
      · have hin : (hsh, names) ∈ h2f := dictFind_mem h2f hsh names hfind
        by_contra hgt
        have : (hsh, names) ∈ computeDuplicates h2f :=
          (hmemdup (hsh, names)).mpr ⟨hin, by simpa using hgt⟩
        rw [he] at this
        simp at this
    · intro hall
      have he : computeDuplicates h2f = [] := by
        by_contra hne
        rcases List.exists_mem_of_ne_nil _ hne with ⟨q, hq⟩
        rcases (hmemdup q).mp hq with ⟨hin, hlen⟩
        have hfind : dictFind h2f q.1 = some q.2 :=
          dictFind_of_mem_nodup h2f q.1 q.2 hnd hin
        have := hall q.1
        rw [hcount q.1, hfind] at this
        simp only [Option.getD_some] at this
        omega
      rw [setDuplicates_duplicates, hdup]
      simp [he]

theorem sortedGroups_sortGroups
    (files : List (String × List (String × FileMetadata))) :
    sortedGroups (files.map (fun g => (g.1, sortByKey g.2))) := by
  intro g hg
  rcases List.mem_map.mp hg with ⟨g', _, hgeq⟩
  rw [← hgeq]
  exact sortByKey_sorted g'.2

theorem dupOk_sortFilesOfNode (node : DirNode) (h : dupOk node) :
    dupOk (sortFilesOfNode node) := by
  have hpairs : (filePairs (sortFilesOfNode node).files).Perm
      (filePairs node.files) := by
    rw [sortFilesOfNode_files]
    exact filePairs_sortGroups node.files
  have hcount : ∀ hsh, hashCount (sortFilesOfNode node).files hsh =
      hashCount node.files hsh := by
    intro hsh
    exact hpairs.countP_eq _
  rcases h with ⟨h1, h2, h3⟩
  refine ⟨?_, ?_, ?_⟩
  · intro q hq
    have hq' : q ∈ dupPresent node := by
      simpa [dupPresent] using hq
    rcases h1 q hq' with ⟨ha, hb, hc⟩
    refine ⟨ha, by rw [hcount]; exact hb, ?_⟩
    intro n hn
    exact hpairs.mem_iff.mpr (hc n hn)
  · intro hsh hge
    rw [hcount] at hge
    rcases h2 hsh hge with ⟨names, hnames⟩
    exact ⟨names, by simpa [dupPresent] using hnames⟩
  · rw [show (sortFilesOfNode node).duplicates = node.duplicates from
      sortFilesOfNode_duplicates node]
    constructor
    · intro hn hsh
      rw [hcount]
      exact h3.mp hn hsh
    · intro hall
      exact h3.mpr (fun hsh => by rw [← hcount]; exact hall hsh)

@[simp] theorem childDirs_addOwnFile (node : DirNode) (n : String)
    (m : FileMetadata) :
    childDirs (addOwnFile node n m) = childDirs node := by
  simp [childDirs]

theorem MidInv_fresh (d : Int) : MidInv d freshNode [] := by
  refine ⟨?_, ?_, ?_, ?_, ?_⟩
  · simp [h2fPairs, filePairs]
  · simp
  · simp [filesSize]
  · simp
  · simp

theorem goodSub_finishNode (dep : Int) (child : DirNode)
    (h2f : List (String × List String)) (hMid : MidInv dep child h2f) :
    goodSub (finishNode child h2f) := by
  rcases hMid with ⟨hperm, hnd, htot, hdup, hkids⟩
  intro k d hd
  cases k with
  | zero =>
    simp only [nodesAtDepth, List.mem_singleton] at hd
    subst hd
    refine ⟨?_, ?_, ?_⟩
    · simp only [finishNode, sortFilesOfNode_total, setDuplicates_total,
        sortFilesOfNode_files, setDuplicates_files, filesSize_sortGroups]
      exact htot
    · simpa only [finishNode] using
        dupOk_sortFilesOfNode _ (dupOk_setDuplicates child h2f hperm hnd hdup)
    · simp only [finishNode, sortFilesOfNode_files, setDuplicates_files]
      exact sortedGroups_sortGroups child.files
  | succ k =>
    simp only [nodesAtDepth, childDirs_finishNode, List.mem_flatMap] at hd
    rcases hd with ⟨p, hp, hdp⟩
    exact (hkids p hp).1 k d hdp

theorem childBound_finishNode (depth : Int) (child : DirNode)
    (h2f : List (String × List String)) (hdep : depth ≠ 0)
    (hkids : ∀ p ∈ childDirs child, childBound (childDepth depth) p.2) :
    childBound depth (finishNode child h2f) := by
  intro k h0 hk
  cases k with
  | zero =>
    exfalso
    apply hdep
    omega
  | succ k =>
    simp only [nodesAtDepth, childDirs_finishNode]
    apply List.flatMap_eq_nil_iff.mpr
    intro p hp
    have hpos : 0 < depth := by omega
    have hc : childDepth depth = depth - 1 := by
      simp [childDepth, hpos]
    apply hkids p hp
    · omega
    · rw [hc]
      omega

/-! The central invariant of the traversal loop. -/

theorem processInv (exts : Option (List String)) :
    (∀ (items : List FSEntry) (node : DirNode)
      (h2f : List (String × List String)) (depth : Int),
      ∀ node' h2f',
        processList exts items node h2f depth = .ok (node', h2f') →
        wfList items = true →
        (∀ e ∈ items, entryName e ∉ fileNames node.files) →
        MidInv depth node h2f →
        MidInv depth node' h2f' ∧
        (∀ x ∈ fileNames node'.files,
          x ∈ fileNames node.files ∨ x ∈ items.map entryName)) ∧
    (∀ (e : FSEntry) (node : DirNode)
      (h2f : List (String × List String)) (depth : Int),
      ∀ node' h2f',
        processEntry exts e node h2f depth = .ok (node', h2f') →
        wfEntry e = true →
        entryName e ∉ fileNames node.files →
        MidInv depth node h2f →
        MidInv depth node' h2f' ∧
        (∀ x ∈ fileNames node'.files,
          x ∈ fileNames node.files ∨ x = entryName e)) := by
  refine processList.mutual_induct exts
    (fun items node h2f depth =>
      ∀ node' h2f',
        processList exts items node h2f depth = .ok (node', h2f') →
        wfList items = true →
        (∀ e ∈ items, entryName e ∉ fileNames node.files) →
        MidInv depth node h2f →
        MidInv depth node' h2f' ∧
        (∀ x ∈ fileNames node'.files,
          x ∈ fileNames node.files ∨ x ∈ items.map entryName))
    (fun e node h2f depth =>
      ∀ node' h2f',
        processEntry exts e node h2f depth = .ok (node', h2f') →
        wfEntry e = true →
        entryName e ∉ fileNames node.files →
        MidInv depth node h2f →
        MidInv depth node' h2f' ∧
        (∀ x ∈ fileNames node'.files,
          x ∈ fileNames node.files ∨ x = entryName e))
    ?_ ?_ ?_ ?_ ?_ ?_ ?_ ?_ ?_ ?_
  · -- file entry that passes the filter but whose metadata access fails
    intro name node h2f x hp node' h2f' heq
    simp only [processEntry, hp, if_pos] at heq
    exact Except.noConfusion heq
  · -- file entry that passes the filter with metadata available
    intro name node h2f x hp m node' h2f' heq hwf hnm hMid
    simp only [processEntry, hp, if_pos, Except.ok.injEq,
      Prod.mk.injEq] at heq
    rcases heq with ⟨hn', hh'⟩
    subst hn'
    subst hh'
    rcases hMid with ⟨hperm, hnd, htot, hdup, hkids⟩
    have hname : name ∉ fileNames node.files := by
      simpa [entryName] using hnm
    constructor
    · refine ⟨?_, ?_, ?_, ?_, ?_⟩
      · rw [addOwnFile_files, addFileToFiles]
        refine (h2fPairs_addHash h2f m.hash name).trans ?_
        refine (hperm.cons (name, m.hash)).trans ?_
        exact (filePairs_addToExtGroups node.files _ name m hname).symm
      · exact addHash_keys_nodup h2f m.hash name hnd
      · rw [addOwnFile_total, addOwnFile_files, addFileToFiles,
          filesSize_addToExtGroups node.files _ name m hname, htot]
      · rw [addOwnFile_duplicates, hdup]
      · intro p hp2
        rw [childDirs_addOwnFile] at hp2
        exact hkids p hp2
    · intro xx hxx
      rw [addOwnFile_files, addFileToFiles] at hxx
      rcases fileNames_addToExtGroups node.files _ name m xx hxx with h | h
      · right
        simpa [entryName] using h
      · left
        exact h
  · -- file entry rejected by the extension filter
    intro name meta node h2f x hp node' h2f' heq hwf hnm hMid
    simp only [processEntry] at heq
    rw [if_neg hp] at heq
    simp only [Except.ok.injEq, Prod.mk.injEq] at heq
    rcases heq with ⟨hn', hh'⟩
    subst hn'
    subst hh'
    exact ⟨hMid, fun x hx => Or.inl hx⟩
  · -- directory entry skipped at depth zero
    intro name listing node h2f depth hd0 node' h2f' heq hwf hnm hMid
    rw [processEntry.eq_def] at heq
    simp only [hd0, if_pos, Except.ok.injEq, Prod.mk.injEq] at heq
    rcases heq with ⟨hn', hh'⟩
    subst hn'
    subst hh'
    exact ⟨hMid, fun x hx => Or.inl hx⟩
  · -- directory entry whose listing fails
    intro name node h2f depth hd0 node' h2f' heq
    simp only [processEntry] at heq
    rw [if_neg hd0] at heq
    simp at heq
  · -- directory entry whose recursive processing fails
    intro name node h2f depth hd0 sub err herr ih node' h2f' heq
    simp only [processEntry] at heq
    rw [if_neg hd0] at heq
    simp only [herr] at heq
    exact Except.noConfusion heq
  · -- directory entry recursively processed
    intro name node h2f depth hd0 sub child childH2f hsub ih node' h2f'
      heq hwf hnm hMid
    simp only [processEntry] at heq
    rw [if_neg hd0] at heq
    simp only [hsub, Except.ok.injEq, Prod.mk.injEq] at heq
    rcases heq with ⟨hn', hh'⟩
    subst hn'
    subst hh'
    have hwfsub : wfList sub = true := by
      simpa [wfEntry] using hwf
    rcases ih child childH2f hsub hwfsub (by simp [fileNames])
        (MidInv_fresh (childDepth depth)) with ⟨hcMid, _⟩
    rcases hMid with ⟨hperm, hnd, htot, hdup, hkids⟩
    have hdep : depth ≠ 0 := by simpa using hd0
    constructor
    · refine ⟨?_, ?_, ?_, ?_, ?_⟩
      · rw [addDirChild_files]
        exact hperm
      · exact hnd
      · rw [addDirChild_total, addDirChild_files]
        exact htot
      · rw [addDirChild_duplicates]
        exact hdup
      · intro p hp2
        rw [addDirChild_childDirs] at hp2
        rcases dictInsert_mem (childDirs node) name
            (finishNode child childH2f) p hp2 with hp2 | hp2
        · rw [hp2]
          constructor
          · exact goodSub_finishNode (childDepth depth) child childH2f hcMid
          · exact childBound_finishNode depth child childH2f hdep
              (fun q hq => (hcMid.2.2.2.2 q hq).2)
        · exact hkids p hp2
    · intro xx hxx
      rw [addDirChild_files] at hxx
      exact Or.inl hxx
  · -- empty listing
    intro node h2f x node' h2f' heq hwf hnm hMid
    simp only [processList, Except.ok.injEq, Prod.mk.injEq] at heq
    rcases heq with ⟨hn', hh'⟩
    subst hn'
    subst hh'
    exact ⟨hMid, fun x hx => Or.inl hx⟩
  · -- first entry of the listing fails
    intro e rest node h2f depth err herr ih node' h2f' heq
    simp only [processList, herr] at heq
    exact Except.noConfusion heq
  · -- first entry of the listing succeeds, continue with the rest
    intro e rest node h2f depth node1 h2f1 hent ihe ihl node' h2f'
      heq hwf hnm hMid
    simp only [processList, hent] at heq
    have hwf3 : (wfEntry e = true ∧
        ∀ x ∈ rest, ¬ entryName x = entryName e) ∧ wfList rest = true := by
      simpa [wfList, Bool.and_eq_true] using hwf
    rcases ihe node1 h2f1 hent hwf3.1.1 (hnm e (List.mem_cons_self e rest))
        hMid with ⟨hMid1, hsub⟩
    have hrest : ∀ e' ∈ rest, entryName e' ∉ fileNames node1.files := by
      intro e' he' hmem
      rcases hsub _ hmem with h | h
      · exact hnm e' (List.mem_cons_of_mem _ he') h
      · exact hwf3.1.2 e' he' h
    rcases ihl node' h2f' heq hwf3.2 hrest hMid1 with ⟨hMidF, hsubF⟩
    refine ⟨hMidF, ?_⟩
    intro x hx
    rcases hsubF x hx with h | h
    · rcases hsub x h with h2 | h2
      · exact Or.inl h2
      · right
        simp [h2]
    · right
      simp [List.mem_cons, h]

/-! Characterization of the root epilogue. -/

@[simp] theorem DirNode.total_mk (t c : Nat)
    (f : List (String × List (String × FileMetadata)))
    (d : Option (List (String × DirNode)))
    (du : Option (List (String × List String))) :
    (DirNode.mk t c f d du).total_size_in_bytes = t := rfl

@[simp] theorem DirNode.count_mk (t c : Nat)
    (f : List (String × List (String × FileMetadata)))
    (d : Option (List (String × DirNode)))
    (du : Option (List (String × List String))) :
    (DirNode.mk t c f d du).file_count = c := rfl

@[simp] theorem DirNode.files_mk (t c : Nat)
    (f : List (String × List (String × FileMetadata)))
    (d : Option (List (String × DirNode)))
    (du : Option (List (String × List String))) :
    (DirNode.mk t c f d du).files = f := rfl

@[simp] theorem DirNode.directories_mk (t c : Nat)
    (f : List (String × List (String × FileMetadata)))
    (d : Option (List (String × DirNode)))
    (du : Option (List (String × List String))) :
    (DirNode.mk t c f d du).directories = d := rfl

@[simp] theorem DirNode.duplicates_mk (t c : Nat)
    (f : List (String × List (String × FileMetadata)))
    (d : Option (List (String × DirNode)))
    (du : Option (List (String × List String))) :
    (DirNode.mk t c f d du).duplicates = du := rfl

theorem sortFilesOfNode_setDuplicates_mk (t c : Nat)
    (f : List (String × List (String × FileMetadata)))
    (d : Option (List (String × DirNode)))
    (du : Option (List (String × List String)))
    (h2f : List (String × List String)) :
    sortFilesOfNode (setDuplicates (.mk t c f d du) h2f) =
      .mk t c (f.map (fun g => (g.1, sortByKey g.2))) d
        ((setDuplicates (.mk t c f d du) h2f).duplicates) := by
  simp only [setDuplicates]
  split <;> simp [sortFilesOfNode, DirNode.duplicates]

theorem finishRoot_total (node : DirNode)
    (h2f : List (String × List String)) :
    (finishRoot node h2f).total_size_in_bytes =
      node.total_size_in_bytes +
        ((childDirs node).map (fun p => p.2.total_size_in_bytes)).sum := by
  cases node with
  | mk t c f d du =>
    simp only [finishRoot, sortFilesOfNode_setDuplicates_mk]
    simp only [DirNode.total_mk, DirNode.directories_mk, childDirs,
      List.map_map, Function.comp_def, sortFilesOfNode_total]

theorem finishRoot_files (node : DirNode)
    (h2f : List (String × List String)) :
    (finishRoot node h2f).files =
      node.files.map (fun g => (g.1, sortByKey g.2)) := by
  cases node with
  | mk t c f d du =>
    simp only [finishRoot, sortFilesOfNode_setDuplicates_mk]
    simp only [DirNode.files_mk]

theorem finishRoot_count (node : DirNode)
    (h2f : List (String × List String)) :
    (finishRoot node h2f).file_count = node.file_count := by
  cases node with
  | mk t c f d du =>
    simp only [finishRoot, sortFilesOfNode_setDuplicates_mk]
    simp only [DirNode.count_mk]

theorem finishRoot_childDirs (node : DirNode)
    (h2f : List (String × List String)) :
    childDirs (finishRoot node h2f) =
      (childDirs node).map (fun p => (p.1, sortFilesOfNode p.2)) := by
  cases node with
  | mk t c f d du =>
    simp only [finishRoot, sortFilesOfNode_setDuplicates_mk]
    simp only [childDirs, DirNode.directories_mk, Option.getD_some]

theorem finishRoot_duplicates (node : DirNode)
    (h2f : List (String × List String)) :
    (finishRoot node h2f).duplicates =
      (setDuplicates node h2f).duplicates := by
  cases node with
  | mk t c f d du =>
    simp only [finishRoot, sortFilesOfNode_setDuplicates_mk]
    simp only [DirNode.duplicates_mk]

theorem nodesAtDepth_sortFilesOfNode_succ (c : DirNode) (k : Nat) :
    nodesAtDepth (sortFilesOfNode c) (k + 1) = nodesAtDepth c (k + 1) := by
  simp only [nodesAtDepth, childDirs_sortFilesOfNode]

theorem dupOk_congr (d1 d2 : DirNode) (hf : d1.files = d2.files)
    (hd : d1.duplicates = d2.duplicates) (h : dupOk d1) : dupOk d2 := by
  rcases h with ⟨h1, h2, h3⟩
  refine ⟨?_, ?_, ?_⟩
  · intro q hq
    have hq' : q ∈ dupPresent d1 := by
      simpa [dupPresent, hd] using hq
    rcases h1 q hq' with ⟨ha, hb, hc⟩
    exact ⟨ha, by rw [← hf]; exact hb, fun n hn => by
      rw [← hf]; exact hc n hn⟩
  · intro hsh hge
    rw [← hf] at hge
    rcases h2 hsh hge with ⟨names, hnames⟩
    exact ⟨names, by simpa [dupPresent, hd] using hnames⟩
  · rw [← hd, ← hf]
    exact h3

theorem MidInv_rootInit (d : Int) : MidInv d rootInitNode [] := by
  refine ⟨?_, ?_, ?_, ?_, ?_⟩
  · simp [h2fPairs, filePairs]
  · simp
  · simp [filesSize]
  · simp
  · simp [childDirs_rootInitNode]

theorem dupOk_emptyNode : dupOk rootInitNode := by
  refine ⟨?_, ?_, ?_⟩
  · intro q hq
    simp [dupPresent] at hq
  · intro hsh hge
    simp [hashCount, filePairs, rootInitNode, DirNode.files] at hge
  · constructor
    · intro _ hsh
      simp [hashCount, filePairs, rootInitNode, DirNode.files]
    · intro _
      rfl

theorem subNode_good (node0 : DirNode)
    (h2f0 : List (String × List String))
    (hkids : ∀ p ∈ childDirs node0, goodSub p.2) :
    ∀ k : Nat, ∀ d ∈ nodesAtDepth (finishRoot node0 h2f0) (k + 1),
      d.total_size_in_bytes = filesSize d.files ∧ dupOk d ∧
        sortedGroups d.files := by
  intro k d hd
  simp only [nodesAtDepth] at hd
  rw [finishRoot_childDirs] at hd
  simp only [List.mem_flatMap, List.mem_map] at hd
  rcases hd with ⟨q, ⟨p, hp, hq⟩, hdq⟩
  rcases hq
  cases k with
  | zero =>
    simp only [nodesAtDepth, List.mem_singleton] at hdq
    subst hdq
    rcases hkids p hp 0 p.2 (by simp [nodesAtDepth]) with ⟨ht, hdup2, hsort⟩
    refine ⟨?_, dupOk_sortFilesOfNode p.2 hdup2, ?_⟩
    · rw [sortFilesOfNode_total, sortFilesOfNode_files,
        filesSize_sortGroups, ht]
    · rw [sortFilesOfNode_files]
      exact sortedGroups_sortGroups p.2.files
  | succ k' =>
    rw [nodesAtDepth_sortFilesOfNode_succ] at hdq
    exact hkids p hp (k' + 1) d hdq

theorem build_good (root : FSEntry) (exts : Option (List String))
    (depth : Int) (name : String) (node : DirNode)
    (hwf : wfEntry root = true)
    (hok : build_hierarchy (some root) exts depth = .ok [(name, node)]) :
    (node.total_size_in_bytes = filesSize node.files +
      ((childDirs node).map (fun p => p.2.total_size_in_bytes)).sum) ∧
    (∀ k : Nat, ∀ d ∈ nodesAtDepth node (k + 1),
      d.total_size_in_bytes = filesSize d.files) ∧
    (∀ k : Nat, ∀ d ∈ nodesAtDepth node k, dupOk d) ∧
    (∀ k : Nat, ∀ d ∈ nodesAtDepth node k, sortedGroups d.files) ∧
    (0 ≤ depth → ∀ k : Nat, depth < (k : Int) → nodesAtDepth node k = []) ∧
    (depth = 0 → childDirs node = []) := by
  cases root with
  | file n meta => simp [build_hierarchy] at hok
  | dir name0 listing =>
    cases listing with
    | none => simp [build_hierarchy] at hok
    | some items =>
      cases items with
      | nil =>
        simp only [build_hierarchy, Except.ok.injEq, List.cons.injEq,
          Prod.mk.injEq, and_true] at hok
        rcases hok with ⟨hn, hnode⟩
        rw [← hnode]
        refine ⟨by simp [filesSize], ?_, ?_, ?_, ?_, ?_⟩
        · intro k d hd
          simp [nodesAtDepth, childDirs_rootInitNode] at hd
        · intro k d hd
          cases k with
          | zero =>
            simp only [nodesAtDepth, List.mem_singleton] at hd
            subst hd
            exact dupOk_emptyNode
          | succ k' =>
            simp [nodesAtDepth, childDirs_rootInitNode] at hd
        · intro k d hd
          cases k with
          | zero =>
            simp only [nodesAtDepth, List.mem_singleton] at hd
            subst hd
            intro g hg
            simp [rootInitNode, DirNode.files] at hg
          | succ k' =>
            simp [nodesAtDepth, childDirs_rootInitNode] at hd
        · intro h0 k hk
          cases k with
          | zero => omega
          | succ k' => simp [nodesAtDepth, childDirs_rootInitNode]
        · intro _
          exact childDirs_rootInitNode
      | cons e rest =>
        simp only [build_hierarchy] at hok
        cases hpl : processList (normalizeExtensions exts) (e :: rest)
            rootInitNode [] depth with
        | error err =>
          rw [hpl] at hok
          exact Except.noConfusion hok
        | ok pair =>
          rw [hpl] at hok
          rcases pair with ⟨node0, h2f0⟩
          simp only [Except.ok.injEq, List.cons.injEq, Prod.mk.injEq,
            and_true] at hok
          rcases hok with ⟨hn, hnode⟩
          rw [← hnode]
          have hwfl : wfList (e :: rest) = true := by
            simpa [wfEntry] using hwf
          rcases (processInv (normalizeExtensions exts)).1 (e :: rest)
              rootInitNode [] depth node0 h2f0 hpl hwfl
              (by simp [fileNames]) (MidInv_rootInit depth) with ⟨hMid, _⟩
          rcases hMid with ⟨hperm, hnd, htot, hdup, hkids⟩
          have hgood : ∀ p ∈ childDirs node0, goodSub p.2 :=
            fun p hp => (hkids p hp).1
          have hbound : ∀ p ∈ childDirs node0, childBound depth p.2 :=
            fun p hp => (hkids p hp).2
          refine ⟨?_, ?_, ?_, ?_, ?_, ?_⟩
          · rw [finishRoot_total, finishRoot_files, filesSize_sortGroups,
              finishRoot_childDirs, htot]
            simp [List.map_map, Function.comp_def, sortFilesOfNode_total]
          · exact fun k d hd =>
              (subNode_good node0 h2f0 hgood k d hd).1
          · intro k d hd
            cases k with
            | zero =>
              simp only [nodesAtDepth, List.mem_singleton] at hd
              subst hd
              refine dupOk_congr (sortFilesOfNode (setDuplicates node0 h2f0))
                _ ?_ ?_ (dupOk_sortFilesOfNode _
                  (dupOk_setDuplicates node0 h2f0 hperm hnd hdup))
              · rw [sortFilesOfNode_files, setDuplicates_files,
                  finishRoot_files]
              · rw [sortFilesOfNode_duplicates, finishRoot_duplicates]
            | succ k' =>
              exact (subNode_good node0 h2f0 hgood k' d hd).2.1
          · intro k d hd
            cases k with
            | zero =>
              simp only [nodesAtDepth, List.mem_singleton] at hd
              subst hd
              rw [finishRoot_files]
              exact sortedGroups_sortGroups node0.files
            | succ k' =>
              exact (subNode_good node0 h2f0 hgood k' d hd).2.2
          · intro h0 k hk
            cases k with
            | zero => omega
            | succ k' =>
              simp only [nodesAtDepth]
              apply List.flatMap_eq_nil_iff.mpr
              intro q hq
              rw [finishRoot_childDirs] at hq
              rcases List.mem_map.mp hq with ⟨p, hp, hqeq⟩
              rcases hqeq
              cases k' with
              | zero =>
                exfalso
                have hd0 : depth = 0 := by omega
                have := hbound p hp 0 (by omega) (by omega)
                simp [nodesAtDepth] at this
              | succ k2 =>
                rw [nodesAtDepth_sortFilesOfNode_succ]
                exact hbound p hp (k2 + 1) h0 (by push_cast at hk ⊢; omega)
          · intro h0
            subst h0
            have hnil : childDirs node0 = [] := by
              rw [List.eq_nil_iff_forall_not_mem]
              intro p hp
              have := hbound p hp 0 (by omega) (by omega)
              simp [nodesAtDepth] at this
            rw [finishRoot_childDirs, hnil]
            rfl

/-! Structure correspondence for unlimited depth. -/

theorem namesAtLevel_congr (a b : DirNode) (h : childDirs a = childDirs b) :
    ∀ k, namesAtLevel a k = namesAtLevel b k := by
  intro k
  cases k <;> simp [namesAtLevel, h]

theorem namesAtLevel_nil_childDirs (a : DirNode) (h : childDirs a = []) :
    ∀ k, namesAtLevel a k = [] := by
  intro k
  cases k <;> simp [namesAtLevel, h]

theorem fsNamesAtLevel_append (a b : List FSEntry) :
    ∀ k, fsNamesAtLevel (a ++ b) k =
      fsNamesAtLevel a k ++ fsNamesAtLevel b k := by
  intro k
  cases k <;>
    simp [fsNamesAtLevel, dirItems, List.filterMap_append]

theorem fsNamesAtLevel_nil : ∀ k, fsNamesAtLevel [] k = [] := by
  intro k
  cases k <;> simp [fsNamesAtLevel, dirItems]

theorem fsNamesAtLevel_file (n : String) (meta : Option FileMetadata) :
    ∀ k, fsNamesAtLevel [.file n meta] k = [] := by
  intro k
  cases k <;> simp [fsNamesAtLevel, dirItems]

theorem fsNamesAtLevel_dir_zero (n : String)
    (l : Option (List FSEntry)) :
    fsNamesAtLevel [.dir n l] 0 = [n] := by
  simp [fsNamesAtLevel, dirItems]

theorem fsNamesAtLevel_dir_succ (n : String) (l : Option (List FSEntry))
    (k : Nat) :
    fsNamesAtLevel [.dir n l] (k + 1) = fsNamesAtLevel (l.getD []) k := by
  simp [fsNamesAtLevel, dirItems]

theorem childDepth_neg_one : childDepth (-1) = -1 := by
  simp [childDepth]

theorem processMirror (exts : Option (List String)) :
    (∀ (items : List FSEntry) (node : DirNode)
      (h2f : List (String × List String)) (depth : Int),
      depth = -1 →
      ∀ node' h2f',
        processList exts items node h2f depth = .ok (node', h2f') →
        wfList items = true →
        (∀ e ∈ items, entryName e ∉ (childDirs node).map Prod.fst) →
        (∀ k, namesAtLevel node' k =
          namesAtLevel node k ++ fsNamesAtLevel items k) ∧
        (∀ x ∈ (childDirs node').map Prod.fst,
          x ∈ (childDirs node).map Prod.fst ∨ x ∈ items.map entryName)) ∧
    (∀ (e : FSEntry) (node : DirNode)
      (h2f : List (String × List String)) (depth : Int),
      depth = -1 →
      ∀ node' h2f',
        processEntry exts e node h2f depth = .ok (node', h2f') →
        wfEntry e = true →
        entryName e ∉ (childDirs node).map Prod.fst →
        (∀ k, namesAtLevel node' k =
          namesAtLevel node k ++ fsNamesAtLevel [e] k) ∧
        (∀ x ∈ (childDirs node').map Prod.fst,
          x ∈ (childDirs node).map Prod.fst ∨ x = entryName e)) := by
  refine processList.mutual_induct exts
    (fun items node h2f depth =>
      depth = -1 →
      ∀ node' h2f',
        processList exts items node h2f depth = .ok (node', h2f') →
        wfList items = true →
        (∀ e ∈ items, entryName e ∉ (childDirs node).map Prod.fst) →
        (∀ k, namesAtLevel node' k =
          namesAtLevel node k ++ fsNamesAtLevel items k) ∧
        (∀ x ∈ (childDirs node').map Prod.fst,
          x ∈ (childDirs node).map Prod.fst ∨ x ∈ items.map entryName))
    (fun e node h2f depth =>
      depth = -1 →
      ∀ node' h2f',
        processEntry exts e node h2f depth = .ok (node', h2f') →
        wfEntry e = true →
        entryName e ∉ (childDirs node).map Prod.fst →
        (∀ k, namesAtLevel node' k =
          namesAtLevel node k ++ fsNamesAtLevel [e] k) ∧
        (∀ x ∈ (childDirs node').map Prod.fst,
          x ∈ (childDirs node).map Prod.fst ∨ x = entryName e))
    ?_ ?_ ?_ ?_ ?_ ?_ ?_ ?_ ?_ ?_
  · intro name node h2f x hp hdneg node' h2f' heq
    simp only [processEntry, hp, if_pos] at heq
    exact Except.noConfusion heq
  · intro name node h2f x hp m hdneg node' h2f' heq hwf hnm
    simp only [processEntry, hp, if_pos, Except.ok.injEq,
      Prod.mk.injEq] at heq
    rcases heq with ⟨hn', hh'⟩
    subst hn'
    subst hh'
    constructor
    · intro k
      rw [fsNamesAtLevel_file, List.append_nil]
      exact namesAtLevel_congr _ _ (childDirs_addOwnFile node name m) k
    · intro x hx
      rw [childDirs_addOwnFile] at hx
      exact Or.inl hx
  · intro name meta node h2f x hp hdneg node' h2f' heq hwf hnm
    simp only [processEntry] at heq
    rw [if_neg hp] at heq
    simp only [Except.ok.injEq, Prod.mk.injEq] at heq
    rcases heq with ⟨hn', hh'⟩
    subst hn'
    subst hh'
    constructor
    · intro k
      rw [fsNamesAtLevel_file, List.append_nil]
    · exact fun x hx => Or.inl hx
  · intro name listing node h2f depth hd0 hdneg node' h2f' heq
    subst hdneg
    simp at hd0
  · intro name node h2f depth hd0 hdneg node' h2f' heq
    simp only [processEntry] at heq
    rw [if_neg hd0] at heq
    simp at heq
  · intro name node h2f depth hd0 sub err herr ih hdneg node' h2f' heq
    simp only [processEntry] at heq
    rw [if_neg hd0] at heq
    simp only [herr] at heq
    exact Except.noConfusion heq
  · intro name node h2f depth hd0 sub child childH2f hsub ih hdneg node'
      h2f' heq hwf hnm
    subst hdneg
    simp only [processEntry] at heq
    rw [if_neg hd0] at heq
    simp only [hsub, Except.ok.injEq, Prod.mk.injEq] at heq
    rcases heq with ⟨hn', hh'⟩
    subst hn'
    subst hh'
    have hwfsub : wfList sub = true := by
      simpa [wfEntry] using hwf
    rw [childDepth_neg_one] at hsub ih
    rcases ih rfl child childH2f hsub hwfsub
        (by simp [childDirs_freshNode]) with ⟨hlev, _⟩
    have hchildlev : ∀ k, namesAtLevel (finishNode child childH2f) k =
        fsNamesAtLevel sub k := by
      intro k
      rw [namesAtLevel_congr _ _ (childDirs_finishNode child childH2f) k,
        hlev k, namesAtLevel_nil_childDirs freshNode childDirs_freshNode k,
        List.nil_append]
    have hins : dictInsert (childDirs node) name
        (finishNode child childH2f) =
        childDirs node ++ [(name, finishNode child childH2f)] :=
      dictInsert_not_mem (childDirs node) name _ (by simpa using hnm)
    constructor
    · intro k
      cases k with
      | zero =>
        simp only [namesAtLevel, addDirChild_childDirs, hins,
          List.map_append, fsNamesAtLevel_dir_zero]
        rfl
      | succ k' =>
        simp only [namesAtLevel, addDirChild_childDirs, hins,
          List.flatMap_append, fsNamesAtLevel_dir_succ]
        simp only [List.flatMap_cons, List.flatMap_nil, List.append_nil,
          Option.getD_some]
        rw [hchildlev k']
    · intro x hx
      rw [addDirChild_childDirs, hins, List.map_append] at hx
      rcases List.mem_append.mp hx with hx | hx
      · exact Or.inl hx
      · right
        simpa [entryName] using hx
  · intro node h2f x hdneg node' h2f' heq hwf hnm
    simp only [processList, Except.ok.injEq, Prod.mk.injEq] at heq
    rcases heq with ⟨hn', hh'⟩
    subst hn'
    subst hh'
    constructor
    · intro k
      rw [fsNamesAtLevel_nil, List.append_nil]
    · exact fun x hx => Or.inl hx
  · intro e rest node h2f depth err herr ih hdneg node' h2f' heq
    simp only [processList, herr] at heq
    exact Except.noConfusion heq
  · intro e rest node h2f depth node1 h2f1 hent ihe ihl hdneg node' h2f'
      heq hwf hnm
    simp only [processList, hent] at heq
    have hwf3 : (wfEntry e = true ∧
        ∀ x ∈ rest, ¬ entryName x = entryName e) ∧ wfList rest = true := by
      simpa [wfList, Bool.and_eq_true] using hwf
    rcases ihe hdneg node1 h2f1 hent hwf3.1.1
        (hnm e (List.mem_cons_self e rest)) with ⟨hlev1, hsub1⟩
    have hrest : ∀ e' ∈ rest,
        entryName e' ∉ (childDirs node1).map Prod.fst := by
      intro e' he' hmem
      rcases hsub1 _ hmem with h | h
      · exact hnm e' (List.mem_cons_of_mem _ he') h
      · exact hwf3.1.2 e' he' h
    rcases ihl hdneg node' h2f' heq hwf3.2 hrest with ⟨hlevF, hsubF⟩
    constructor
    · intro k
      rw [hlevF k, hlev1 k, List.append_assoc]
      rw [show (e :: rest) = [e] ++ rest from rfl,
        fsNamesAtLevel_append [e] rest k]
    · intro x hx
      rcases hsubF x hx with h | h
      · rcases hsub1 x h with h2 | h2
        · exact Or.inl h2
        · right
          simp [h2]
      · right
        simp [List.mem_cons, h]

theorem flatMap_namesAtLevel_sort (l : List (String × DirNode)) (k : Nat) :
    ((l.map (fun p => (p.1, sortFilesOfNode p.2))).flatMap
      (fun p => namesAtLevel p.2 k)) =
    l.flatMap (fun p => namesAtLevel p.2 k) := by
  induction l with
  | nil => simp
  | cons p rest ih =>
    simp only [List.map_cons, List.flatMap_cons, ih]
    rw [namesAtLevel_congr (sortFilesOfNode p.2) p.2
      (childDirs_sortFilesOfNode p.2) k]

theorem namesAtLevel_finishRoot (node0 : DirNode)
    (h2f0 : List (String × List String)) :
    ∀ k, namesAtLevel (finishRoot node0 h2f0) k = namesAtLevel node0 k := by
  intro k
  cases k with
  | zero =>
    simp only [namesAtLevel, finishRoot_childDirs, List.map_map,
      Function.comp_def]
  | succ k' =>
    simp only [namesAtLevel, finishRoot_childDirs]
    exact flatMap_namesAtLevel_sort (childDirs node0) k'

theorem build_mirror (root : FSEntry) (exts : Option (List String))
    (name : String) (node : DirNode) (hwf : wfEntry root = true)
    (hok : build_hierarchy (some root) exts (-1) = .ok [(name, node)]) :
    ∀ k, namesAtLevel node k = fsChildNamesAtLevel root k := by
  cases root with
  | file n meta => simp [build_hierarchy] at hok
  | dir name0 listing =>
    cases listing with
    | none => simp [build_hierarchy] at hok
    | some items =>
      cases items with
      | nil =>
        simp only [build_hierarchy, Except.ok.injEq, List.cons.injEq,
          Prod.mk.injEq, and_true] at hok
        rcases hok with ⟨hn, hnode⟩
        rw [← hnode]
        intro k
        rw [namesAtLevel_nil_childDirs rootInitNode childDirs_rootInitNode k]
        simp [fsChildNamesAtLevel, fsNamesAtLevel_nil]
      | cons e rest =>
        simp only [build_hierarchy] at hok
        cases hpl : processList (normalizeExtensions exts) (e :: rest)
            rootInitNode [] (-1) with
        | error err =>
          rw [hpl] at hok
          exact Except.noConfusion hok
        | ok pair =>
          rw [hpl] at hok
          rcases pair with ⟨node0, h2f0⟩
          simp only [Except.ok.injEq, List.cons.injEq, Prod.mk.injEq,
            and_true] at hok
          rcases hok with ⟨hn, hnode⟩
          rw [← hnode]
          have hwfl : wfList (e :: rest) = true := by
            simpa [wfEntry] using hwf
          rcases (processMirror (normalizeExtensions exts)).1 (e :: rest)
              rootInitNode [] (-1) rfl node0 h2f0 hpl hwfl
              (by simp [childDirs_rootInitNode]) with ⟨hlev, _⟩
          intro k
          rw [namesAtLevel_finishRoot node0 h2f0 k, hlev k,
            namesAtLevel_nil_childDirs rootInitNode childDirs_rootInitNode k,
            List.nil_append]
          rfl

/-! CSV export lemmas. -/

theorem processFilesRows_length (path : String)
    (files : List (String × List (String × FileMetadata))) :
    (processFilesRows path files).length = fileEntryCount files := by
  induction files with
  | nil => simp [processFilesRows, fileEntryCount]
  | cons g rest ih =>
    simp only [processFilesRows, List.flatMap_cons, List.length_append,
      List.length_map, fileEntryCount, List.map_cons, List.sum_cons]
    simp only [processFilesRows, fileEntryCount] at ih
    omega

theorem processFilesRows_directory (path : String)
    (files : List (String × List (String × FileMetadata))) :
    ∀ r ∈ processFilesRows path files, r.directory = path := by
  intro r hr
  simp only [processFilesRows, List.mem_flatMap, List.mem_map] at hr
  rcases hr with ⟨g, _, p, _, hpr⟩
  rw [← hpr]

theorem length_flatMap_rows (l : List (String × DirNode)) (path : String) :
    ((l.flatMap (fun d => processFilesRows (path ++ "/" ++ d.1) d.2.files)).length) =
      (l.map (fun d => fileEntryCount d.2.files)).sum := by
  induction l with
  | nil => simp
  | cons d rest ih =>
    simp only [List.flatMap_cons, List.length_append, List.map_cons,
      List.sum_cons, processFilesRows_length, ih]

theorem dirsFileCount_eq (l : List (String × DirNode)) :
    dirsFileCount l = (l.map (fun p => nodeFileCount p.2)).sum := by
  induction l with
  | nil => rfl
  | cons p rest ih =>
    rcases p with ⟨n, d⟩
    simp only [dirsFileCount, ih, List.map_cons, List.sum_cons]

theorem nodeFileCount_eq (d : DirNode) :
    nodeFileCount d = fileEntryCount d.files +
      ((childDirs d).map (fun p => nodeFileCount p.2)).sum := by
  cases d with
  | mk t c f dd du =>
    cases dd with
    | none =>
      simp [nodeFileCount, childDirs, DirNode.directories_mk,
        DirNode.files_mk]
    | some dirs =>
      simp [nodeFileCount, dirsFileCount_eq, childDirs,
        DirNode.directories_mk, DirNode.files_mk]

theorem csvRows_eq_nil_of_zero (r : String × DirNode)
    (hz : nodeFileCount r.2 = 0) :
    (processFilesRows r.1 r.2.files ++
      (match r.2.directories with
       | none => []
       | some dirs =>
         dirs.flatMap (fun d =>
           processFilesRows (r.1 ++ "/" ++ d.1) d.2.files))) = [] := by
  have hq := nodeFileCount_eq r.2
  rw [hz] at hq
  have hfe : fileEntryCount r.2.files = 0 := by omega
  have hkids : ∀ p ∈ childDirs r.2, nodeFileCount p.2 = 0 := by
    intro p hp
    have hsum : ((childDirs r.2).map (fun p => nodeFileCount p.2)).sum = 0 :=
      by omega
    exact List.sum_eq_zero_iff.mp hsum _ (List.mem_map_of_mem _ hp)
  have hA : processFilesRows r.1 r.2.files = [] :=
    List.eq_nil_of_length_eq_zero
      ((processFilesRows_length r.1 r.2.files).trans hfe)
  rw [hA, List.nil_append]
  cases hd : r.2.directories with
  | none => rfl
  | some dirs =>
    apply List.flatMap_eq_nil_iff.mpr
    intro d hdm
    have hdm' : d ∈ childDirs r.2 := by
      simp [childDirs, hd, hdm]
    have hz2 := nodeFileCount_eq d.2
    rw [hkids d hdm'] at hz2
    have : fileEntryCount d.2.files = 0 := by omega
    exact List.eq_nil_of_length_eq_zero
      ((processFilesRows_length _ d.2.files).trans this)

/-! Claim theorems. -/

/-- C1 counterexample: in the tree built for `c1fs` (a file of size 5 at
depth 2), the unique directory node one level below the root records
`total_size_in_bytes = 0` although the sum of its own filtered file sizes
and its subdirectories' totals is 5 — so sizes do not propagate across
more than one level, refuting the claimed invariant at this input. -/
theorem C1_counterexample :
    (build_hierarchy (some c1fs) none (-1)).map
      (fun h => h.map (fun p =>
        (nodesAtDepth p.2 1).map (fun d =>
          (d.total_size_in_bytes,
            filesSize d.files +
              ((childDirs d).map (fun q => q.2.total_size_in_bytes)).sum)))) =
      .ok [[(0, 5)]] := by rfl

/-- C1 (amended): in the tree returned by build on a well-formed
filesystem, the root node's `total_size_in_bytes` equals the sum of its
own filtered file sizes plus the `total_size_in_bytes` of its immediate
subdirectory nodes, while every deeper node's `total_size_in_bytes`
equals the sum of its own filtered file sizes only — subdirectory totals
are not added below the root, so sizes of files at depth two or more do
not propagate up. -/
theorem C1_amended_theorem (root : FSEntry) (exts : Option (List String))
    (depth : Int) (name : String) (node : DirNode)
    (hwf : wfEntry root = true)
    (hok : build_hierarchy (some root) exts depth = .ok [(name, node)]) :
    (node.total_size_in_bytes = filesSize node.files +
      ((childDirs node).map (fun p => p.2.total_size_in_bytes)).sum) ∧
    (∀ k : Nat, ∀ d ∈ nodesAtDepth node (k + 1),
      d.total_size_in_bytes = filesSize d.files) :=
  ⟨(build_good root exts depth name node hwf hok).1,
   (build_good root exts depth name node hwf hok).2.1⟩

/-- Witness for the amended C1 theorem at the concrete tree built from
`c3fs`. -/
theorem C1_amended_witness :
    c3node.total_size_in_bytes = filesSize c3node.files +
      ((childDirs c3node).map (fun p => p.2.total_size_in_bytes)).sum :=
  (C1_amended_theorem c3fs none (-1) ("r") c3node (by rfl) (by rfl)).1

/-- C2 counterexample: one file whose metadata extraction fails makes the
whole build return an error even though a healthy sibling exists — the
builder does not skip the entry and continue, refuting the claim at this
input. -/
theorem C2_counterexample :
    build_hierarchy (some c2fs) none (-1) =
      .error (.accessError ("bad.txt")) := by rfl

/-- C2 (amended): when metadata extraction fails for a file that passes
the extension filter, or a subdirectory's listing fails at non-zero
remaining depth, the traversal loop aborts immediately with that access
error: siblings after the failing entry are not visited and no partial
result is produced. -/
theorem C2_amended_theorem (exts : Option (List String)) (name : String)
    (rest : List FSEntry) (node : DirNode)
    (h2f : List (String × List String)) (depth : Int) :
    (passesFilter exts name = true →
      processList exts (.file name none :: rest) node h2f depth =
        .error (.accessError name)) ∧
    (depth ≠ 0 →
      processList exts (.dir name none :: rest) node h2f depth =
        .error (.accessError name)) := by
  constructor
  · intro hp
    simp [processList, processEntry, hp]
  · intro hd
    have hd0 : ¬ (depth == 0) = true := by simpa using hd
    simp only [processList, processEntry]
    rw [if_neg hd0]

/-- Witness for the amended C2 theorem at a concrete failing file. -/
theorem C2_amended_witness :
    processList none [.file ("bad.txt") none] rootInitNode [] (-1) =
      .error (.accessError ("bad.txt")) :=
  (C2_amended_theorem none ("bad.txt") [] rootInitNode [] (-1)).1 (by rfl)

/-- C3: in the tree built from a well-formed filesystem, every node at
every depth has a duplicates table that is exactly the content hashes
shared by at least two of that node's own files, each mapped to those
file names: every listed hash group has at least two names, the group
size equals the number of own files with that hash and its names are own
file names carrying it; every hash with at least two own files is
listed; and the `duplicates` key is absent exactly when no hash is
shared — so a hash occurring once each in two different directories is
reported in neither. -/
theorem C3_duplicates_theorem (root : FSEntry)
    (exts : Option (List String)) (depth : Int) (name : String)
    (node : DirNode) (hwf : wfEntry root = true)
    (hok : build_hierarchy (some root) exts depth = .ok [(name, node)]) :
    ∀ k : Nat, ∀ d ∈ nodesAtDepth node k, dupOk d :=
  (build_good root exts depth name node hwf hok).2.2.1

/-- Witness for C3 at the concrete tree with two same-content files. -/
theorem C3_duplicates_witness : dupOk c3node :=
  C3_duplicates_theorem c3fs none (-1) ("r") c3node (by rfl) (by rfl) 0
    c3node (by simp [nodesAtDepth])

/-- C4: build with depth 0 records no subdirectory nodes; for every
depth N at least 0, no directory node exists more than N levels below
the root (skipped directories leave no placeholder nodes); and with
depth -1 the tree mirrors the filesystem's directory names at every
level, so no depth limit applies. -/
theorem C4_depth_theorem (root : FSEntry) (exts : Option (List String))
    (depth : Int) (name : String) (node : DirNode)
    (hwf : wfEntry root = true)
    (hok : build_hierarchy (some root) exts depth = .ok [(name, node)]) :
    (depth = 0 → childDirs node = []) ∧
    (0 ≤ depth → ∀ k : Nat, depth < (k : Int) → nodesAtDepth node k = []) ∧
    (depth = -1 → ∀ k, namesAtLevel node k = fsChildNamesAtLevel root k) := by
  refine ⟨(build_good root exts depth name node hwf hok).2.2.2.2.2,
    (build_good root exts depth name node hwf hok).2.2.2.2.1, ?_⟩
  intro hd
  subst hd
  exact build_mirror root exts name node hwf hok

/-- Witness for C4 at the concrete empty root with depth 0. -/
theorem C4_depth_witness :
    childDirs rootInitNode = [] ∧ nodesAtDepth rootInitNode 1 = [] := by
  have h := C4_depth_theorem emptyRootFS none 0 ("r") rootInitNode
    (by rfl) (by rfl)
  exact ⟨h.1 rfl, h.2.1 (by omega) 1 (by omega)⟩

/-- C5 counterexample: the tree built for `c5fs` records exactly one file
(at depth 2), yet the CSV export produces zero rows — the export does not
emit one row per file at every depth, refuting the claim at this
input. -/
theorem C5_counterexample :
    (build_hierarchy (some c5fs) none (-1)).map
      (fun h => ((csvRows h).length, treeFileCount h)) = .ok (0, 1) := by
  rfl

/-- C5 (amended): CSV export of a hierarchy emits exactly one row per
file recorded in the root node and in the root's immediate subdirectory
nodes only — files recorded in deeper nodes are omitted — and every
row's directory path is either the root name or the root name joined
with the immediate subdirectory's name by a slash. -/
theorem C5_amended_theorem (name : String) (node : DirNode) :
    ((csvRows [(name, node)]).length =
      fileEntryCount node.files +
        ((childDirs node).map (fun p => fileEntryCount p.2.files)).sum) ∧
    (∀ r ∈ csvRows [(name, node)], r.directory = name ∨
      ∃ p ∈ childDirs node, r.directory = name ++ "/" ++ p.1) := by
  have hshape : csvRows [(name, node)] =
      processFilesRows name node.files ++
        (match node.directories with
         | none => []
         | some dirs =>
           dirs.flatMap (fun d =>
             processFilesRows (name ++ "/" ++ d.1) d.2.files)) := by
    simp [csvRows]
  constructor
  · rw [hshape]
    cases hd : node.directories with
    | none =>
      simp [processFilesRows_length, childDirs, hd]
    | some dirs =>
      simp only [List.length_append, processFilesRows_length,
        length_flatMap_rows, childDirs, hd, Option.getD_some]
  · intro r hr
    rw [hshape] at hr
    rcases List.mem_append.mp hr with hr | hr
    · exact Or.inl (processFilesRows_directory name node.files r hr)
    · rcases hd : node.directories with _ | dirs
      · rw [hd] at hr
        simp at hr
      · rw [hd] at hr
        simp only [List.mem_flatMap] at hr
        rcases hr with ⟨d, hdm, hrm⟩
        right
        refine ⟨d, by simp [childDirs, hd, hdm], ?_⟩
        exact processFilesRows_directory _ d.2.files r hrm

/-- Witness for the amended C5 theorem: the tree of `c3fs` holds two
root-level files and the export emits exactly two rows. -/
theorem C5_amended_witness : (csvRows [(("r"), c3node)]).length = 2 := by
  have h := (C5_amended_theorem ("r") c3node).1
  rw [h]
  rfl

/-- C6: extension-filter normalization lower-cases every entry and
prefixes a dot when missing (so TXT becomes .txt); filtering depends
only on the lower-cased extension of the file name, making it
case-insensitive on both sides; a `none` filter passes every file; and
the concrete build over upper- and lower-case .txt files with filter
TXT includes exactly those two files. -/
theorem C6_extension_theorem (ext nm n1 n2 : String)
    (es : Option (List String)) :
    (headIsDot ext = false → normalizeExt ext = "." ++ strLower ext) ∧
    (headIsDot ext = true → normalizeExt ext = strLower ext) ∧
    normalizeExtensions (some [("TXT")]) = some [(".txt")] ∧
    normalizeExtensions none = none ∧
    passesFilter none nm = true ∧
    (strLower (splitextExt n1) = strLower (splitextExt n2) →
      passesFilter es n1 = passesFilter es n2) ∧
    (build_hierarchy (some c6fs) (some [("TXT")]) (-1)).map
        (fun h => h.map (fun p => (p.1, p.2.file_count,
          fileNames p.2.files))) =
      .ok [(("r"), 2, [("A.TXT"), ("b.txt")])] := by
  refine ⟨?_, ?_, by rfl, rfl, rfl, ?_, by rfl⟩
  · intro h
    simp [normalizeExt, h]
  · intro h
    simp [normalizeExt, h]
  · intro h
    cases es with
    | none => rfl
    | some l => simp [passesFilter, h]

/-- Witness for C6 at concrete extension strings. -/
theorem C6_extension_witness :
    normalizeExt ("TXT") = "." ++ strLower ("TXT") ∧
    passesFilter (some [(".txt")]) ("A.TXT") =
      passesFilter (some [(".txt")]) ("a.txt") := by
  have h := C6_extension_theorem ("TXT") ("x") ("A.TXT") ("a.txt")
    (some [(".txt")])
  exact ⟨h.1 (by rfl), h.2.2.2.2.2.1 (by rfl)⟩

/-- C7: in the tree built from a well-formed filesystem, every node at
every depth has each extension group's file-name-to-metadata mapping in
lexicographic order by file name. -/
theorem C7_sorted_theorem (root : FSEntry) (exts : Option (List String))
    (depth : Int) (name : String) (node : DirNode)
    (hwf : wfEntry root = true)
    (hok : build_hierarchy (some root) exts depth = .ok [(name, node)]) :
    ∀ k : Nat, ∀ d ∈ nodesAtDepth node k, sortedGroups d.files :=
  (build_good root exts depth name node hwf hok).2.2.2.1

/-- Witness for C7 at the concrete tree of `c3fs`. -/
theorem C7_sorted_witness : sortedGroups c3node.files :=
  C7_sorted_theorem c3fs none (-1) ("r") c3node (by rfl) (by rfl) 0
    c3node (by simp [nodesAtDepth])

/-- C8: when the root path does not exist (`none`) or is not a directory
(a file entry), both the builder and the constructor terminate normally
with an empty hierarchy — the condition is reported by printing, not by
raising. -/
theorem C8_invalid_root_theorem (exts : Option (List String))
    (depth : Int) :
    build_hierarchy none exts depth = .ok [] ∧
    (∀ (name : String) (meta : Option FileMetadata),
      build_hierarchy (some (.file name meta)) exts depth = .ok []) ∧
    hierarchyInit none exts depth = .ok [] ∧
    (∀ (name : String) (meta : Option FileMetadata),
      hierarchyInit (some (.file name meta)) exts depth = .ok []) :=
  ⟨rfl, fun _ _ => rfl, rfl, fun _ _ => rfl⟩

/-- C9: constructing a `Hierarchy` over an existing root that contains a
subdirectory with no included files and no nested subdirectory raises an
unhandled KeyError on the `directories` key: the builder creates the
subdirectory node without that key, and the summary analyzer invoked by
the constructor reads it unconditionally once the node's files are
empty. -/
theorem C9_keyerror_theorem :
    hierarchyInit (some c9fs) none (-1) =
      .error (.analyzeErr (.keyError ("directories"))) := by rfl

/-- C10: when a hierarchy records zero files anywhere in its tree, the
CSV export writes nothing at all — not even a header row, the output
location is untouched. -/
theorem C10_csv_empty_theorem (h : List (String × DirNode))
    (hzero : treeFileCount h = 0) : export_to_csv h = none := by
  have hrows : csvRows h = [] := by
    induction h with
    | nil => rfl
    | cons r rest ih =>
      have hz : nodeFileCount r.2 = 0 ∧ treeFileCount rest = 0 := by
        simp only [treeFileCount, List.map_cons, List.sum_cons] at hzero
        constructor
        · omega
        · simp only [treeFileCount]
          omega
      simp only [csvRows, List.flatMap_cons]
      rw [csvRows_eq_nil_of_zero r hz.1]
      simp only [List.nil_append]
      have := ih hz.2
      simpa [csvRows] using this
  simp [export_to_csv, hrows]

/-- Witness for C10 at the concrete empty-root build result. -/
theorem C10_csv_empty_witness :
    export_to_csv [(("r"), rootInitNode)] = none :=
  C10_csv_empty_theorem [(("r"), rootInitNode)] (by rfl)
